import Mathlib

/-!
Verification of the screen-resolution detection core of `quick-accent`
(`src/screen/mod.rs`), against its natural-language specification.

Modelling conventions (shallow embedding):

* A text document handed to a scanner is represented by the list of its
  lines (Rust's `str::lines()`), each line a `List Char`.  `Str` abbreviates
  `List Char`.
* Rust numeric parsing (`parse::<f32>()` on width/height fields and
  `parse::<i32>()` on positions) is modelled by `parseIntRust`, the
  decimal-integer fragment: an optional leading `'-'` followed by a
  non-empty run of decimal digits.  All screen geometry in scope consists
  of such integers (exactly representable in `f32`), so `ScreenInfo`
  carries `Int` fields where the source carries `f32`.
* Each Rust function that performs I/O (spawning an external command,
  reading sysfs) takes the outcome of that I/O as an explicit parameter:
  `none` models "the command could not be spawned or exited unsuccessfully
  / the file could not be read", `some lines` models a successful run whose
  captured output has the given lines.  Everything after the I/O boundary
  is translated line-for-line from the source.
-/

/-- A line (or token) of external-tool output: Rust `&str` as its char list. -/
abbrev Str := List Char

/-- Char list of a string literal (convenience for concrete documents). -/
def toL (s : String) : Str := s.toList

/-! ## Rust string primitives, modelled on `List Char` -/

/-- Rust `char::is_whitespace` restricted to the ASCII whitespace that the
tool outputs in scope can contain. -/
def isWS (c : Char) : Bool := c = ' ' || c = '\t' || c = '\n' || c = '\r'

/-- Rust `str::trim_start`: drop leading whitespace. -/
def ltrimWS (l : Str) : Str := l.dropWhile isWS

/-- Rust `str::trim_end`: drop trailing whitespace. -/
def rtrimWS (l : Str) : Str := ((l.reverse).dropWhile isWS).reverse

/-- Rust `str::trim`. -/
def rust_trim (l : Str) : Str := rtrimWS (ltrimWS l)

/-- Rust `str::trim_end_matches(',')`: drop every trailing comma. -/
def trimEndComma (l : Str) : Str := ((l.reverse).dropWhile (fun c => c = ',')).reverse

/-- Rust `str::trim_matches('"')`: drop every leading and trailing `'"'`. -/
def trimQuote (l : Str) : Str :=
  (((l.dropWhile (fun c => c = '"')).reverse).dropWhile (fun c => c = '"')).reverse

/-- Rust `str::starts_with(pat)`. -/
def rust_starts_with (hay pat : Str) : Bool := pat.isPrefixOf hay

/-- Rust `str::contains(pat)`: substring containment, checked suffix by suffix. -/
def rust_contains (hay pat : Str) : Bool :=
  match hay with
  | [] => pat.isPrefixOf []
  | c :: t => pat.isPrefixOf (c :: t) || rust_contains t pat

/-- Rust `str::split_once(ch)`: split at the first occurrence of `ch`. -/
def splitOnce (l : Str) (ch : Char) : Option (Str × Str) :=
  match l with
  | [] => none
  | c :: t =>
    if c = ch then some ([], t)
    else (splitOnce t ch).map (fun p => (c :: p.1, p.2))

/-- Rust `str::split(ch).nth(1)`: the segment between the first and second
occurrence of `ch` (to the end if `ch` occurs only once); `none` when `ch`
does not occur at all. -/
def splitNth1 (l : Str) (ch : Char) : Option Str :=
  (splitOnce l ch).map (fun p =>
    match splitOnce p.2 ch with
    | some q => q.1
    | none => p.2)

/-- Value of a decimal digit. -/
def digitVal (c : Char) : Nat := c.toNat - 48

/-- Fold a digit run into a natural number. -/
def natOfDigits (l : Str) : Nat := l.foldl (fun acc c => 10 * acc + digitVal c) 0

/-- Parse a non-empty run of decimal digits. -/
def parseNatRust (l : Str) : Option Nat :=
  if l ≠ [] ∧ l.all Char.isDigit then some (natOfDigits l) else none

/-- The decimal-integer fragment of Rust numeric parsing (`parse::<f32>()` /
`parse::<i32>()`): optional leading `'-'`, then a non-empty digit run. -/
def parseIntRust (l : Str) : Option Int :=
  if l.head? = some '-' then (parseNatRust l.tail).map (fun n => -(n : Int))
  else (parseNatRust l).map (fun n => (n : Int))

/-- Rust `str::split_whitespace`, via an accumulator for the current token
(kept reversed). -/
def splitWSAux : Str → Str → List Str
  | [], acc => if acc = [] then [] else [acc.reverse]
  | c :: rest, acc =>
    if isWS c then
      if acc = [] then splitWSAux rest [] else acc.reverse :: splitWSAux rest []
    else splitWSAux rest (c :: acc)

/-- Rust `str::split_whitespace`: the non-empty whitespace-separated tokens. -/
def splitWhitespace (l : Str) : List Str := splitWSAux l []

/-! ## Data model -/

/-- `ScreenInfo` (src/screen/mod.rs lines 3–6): a detected resolution.
The source stores `f32`; every value in scope is an integer (see the
modelling conventions), so the fields are `Int`. -/
structure ScreenInfo where
  width : Int
  height : Int
deriving DecidableEq, Repr

/-- `Default for ScreenInfo` (lines 8–15): the hard-coded `{1920, 1080}`. -/
def ScreenInfo.default : ScreenInfo := ⟨1920, 1080⟩

/-- `ScreenConfig` (src/config/screen.rs lines 3–11): the three
configuration booleans of the screen subsystem. -/
structure ScreenConfig where
  prefer_focused_screen : Bool
  allow_x11_fallback : Bool
  debug_screen_detection : Bool
deriving DecidableEq, Repr

/-- `Default for ScreenConfig` (src/config/screen.rs lines 13–21). -/
def ScreenConfig.default : ScreenConfig := ⟨true, true, true⟩

/-! ## Shared field-extraction idiom

Each pseudo-JSON scanner extracts a numeric field with the same idiom
(e.g. lines 128–131 of the source):

    if let Some(value_str) = line.split(':').nth(1) {
        let value_str = value_str.trim().trim_end_matches(',');
        width = value_str.parse().ok();
    }

Note that when the split succeeds the field is assigned the parse result
even if parsing fails (clearing a previously held value), while a failed
split leaves the field untouched. -/

/-- One application of the shared field-extraction idiom to the (trimmed)
line `t`, updating the previously held value `old`. -/
def updateField (t : Str) (old : Option Int) : Option Int :=
  match splitNth1 t ':' with
  | none => old
  | some v => parseIntRust (trimEndComma (rust_trim v))

/-! ## Orchestrator (`detect`, `detect_linux`, lines 17–49)

`detect_linux` calls four stage functions in order, returning at the first
success.  Each stage function performs I/O, so its outcome is a parameter
here: `a` = Wayland focused, `b` = Wayland primary, `c` = X11/XWayland
focused, `d` = sysfs. -/

/-- `ScreenInfo::detect_linux` (lines 26–49): the four-stage early-return
chain; `none` models the final `Err`. -/
def detect_linux (a b c d : Option ScreenInfo) : Option ScreenInfo :=
  match a with
  | some focused_screen => some focused_screen
  | none =>
    match b with
    | some screen => some screen
    | none =>
      match c with
      | some focused_screen => some focused_screen
      | none =>
        match d with
        | some resolution => some resolution
        | none => none

/-- `ScreenInfo::detect` (lines 17–24): `detect_linux().unwrap_or_default()`. -/
def detect (a b c d : Option ScreenInfo) : ScreenInfo :=
  (detect_linux a b c d).getD ScreenInfo.default

/-- The orchestrator's stages, for stating which ones are attempted. -/
inductive Stage where
  | waylandFocused
  | waylandPrimary
  | x11Focused
  | sysfs
deriving DecidableEq, Repr

/-- The stage functions `detect_linux` invokes, in invocation order: the
early-return chain of lines 26–49 calls a stage function exactly when every
earlier stage returned `Err`. -/
def detectAttempts (a b c : Option ScreenInfo) : List Stage :=
  Stage.waylandFocused ::
    match a with
    | some _ => []
    | none =>
      Stage.waylandPrimary ::
        match b with
        | some _ => []
        | none =>
          Stage.x11Focused ::
            match c with
            | some _ => []
            | none => [Stage.sysfs]

/-! ## Key-string constants appearing in the source -/

/-- The literal `"focused": true` (with quotes) of lines 125 and 165. -/
def focusedTrueKey : Str := toL "\"focused\": true"

/-- The literal `"width":` of lines 127, 212, 430, 462. -/
def widthKey : Str := toL "\"width\":"

/-- The literal `"height":` of lines 132, 217, 435, 467. -/
def heightKey : Str := toL "\"height\":"

/-- The literal `"name":` of line 208. -/
def nameKey : Str := toL "\"name\":"

/-- The literal `"output":` of line 169. -/
def outputKey : Str := toL "\"output\":"

/-- The literal `"current": true` of lines 210 and 460. -/
def currentTrueKey : Str := toL "\"current\": true"

/-! ## Hyprland focused probe (`detect_hyprland_focused`, lines 104–146)

The scan looks for a line containing `"focused": true`; once seen, it
accumulates `width`/`height` fields, and at the first lone `}` line either
emits (both fields set) or `break`s out of the loop (which makes the probe
return `Err`). -/

/-- The line loop of `detect_hyprland_focused` (lines 118–143), with the
state `in_focused_monitor` / `width` / `height` made explicit. -/
def hyprFocusedScan : List Str → Bool → Option Int → Option Int → Option ScreenInfo
  | [], _, _, _ => none
  | l :: ls, inF, w, h =>
    let t := rust_trim l
    if rust_contains t focusedTrueKey then hyprFocusedScan ls true w h
    else if inF && rust_starts_with t widthKey then
      hyprFocusedScan ls inF (updateField t w) h
    else if inF && rust_starts_with t heightKey then
      hyprFocusedScan ls inF w (updateField t h)
    else if inF && t = ['\x7d'] then
      match w, h with
      | some a, some b => some ⟨a, b⟩
      | _, _ => none
    else hyprFocusedScan ls inF w h

/-- `ScreenInfo::detect_hyprland_focused` (lines 104–146): `cmd` is the
outcome of `hyprctl monitors -j` (`none` = spawn failure or non-zero exit). -/
def detect_hyprland_focused (cmd : Option (List Str)) : Option ScreenInfo :=
  match cmd with
  | none => none
  | some ls => hyprFocusedScan ls false none none

/-! ## Hyprland primary parse (`parse_hyprctl_output`, lines 422–448)

Scans the whole document for `"width":` / `"height":` lines with no object
or focus gating, returning as soon as both fields hold a value. -/

/-- The line loop of `parse_hyprctl_output` (lines 428–446). -/
def hyprctlScan : List Str → Option Int → Option Int → Option ScreenInfo
  | [], _, _ => none
  | l :: ls, w, h =>
    let t := rust_trim l
    if rust_starts_with t widthKey then
      let w' := updateField t w
      match w', h with
      | some a, some b => some ⟨a, b⟩
      | _, _ => hyprctlScan ls w' h
    else if rust_starts_with t heightKey then
      let h' := updateField t h
      match w, h' with
      | some a, some b => some ⟨a, b⟩
      | _, _ => hyprctlScan ls w h'
    else
      match w, h with
      | some a, some b => some ⟨a, b⟩
      | _, _ => hyprctlScan ls w h

/-- `ScreenInfo::parse_hyprctl_output` (lines 422–448). -/
def parse_hyprctl_output (ls : List Str) : Option ScreenInfo :=
  hyprctlScan ls none none

/-! ## Sway focused probe (lines 148–234) -/

/-- The inner loop of `detect_sway_focused` (lines 167–176): scan the whole
workspace document, from its first line, for the first trimmed line starting
with `"output":` and extract the name via
`split(':').nth(1)` / `trim` / `trim_matches('"')` / `trim_end_matches(',')`. -/
def firstOutputName : List Str → Option Str
  | [] => none
  | l :: ls =>
    let t := rust_trim l
    if rust_starts_with t outputKey then
      match splitNth1 t ':' with
      | some output_part => some (trimEndComma (trimQuote (rust_trim output_part)))
      | none => firstOutputName ls
    else firstOutputName ls

/-- The outer loop of `detect_sway_focused` (lines 163–179): on the first
line containing `"focused": true`, run the inner scan over the whole
document (`all`) and stop. -/
def swayFocusedNameLoop (all : List Str) : List Str → Option Str
  | [] => none
  | l :: ls =>
    if rust_contains (rust_trim l) focusedTrueKey then firstOutputName all
    else swayFocusedNameLoop all ls

/-- The focused-output-name extraction of `detect_sway_focused`
(lines 159–179), over the full workspace document. -/
def swayWorkspaceOutputName (all : List Str) : Option Str :=
  swayFocusedNameLoop all all

/-- The line loop of `parse_sway_output_by_name` (lines 205–232), with the
state `in_target_output` / `in_current_mode` / `width` / `height` explicit.
A `}` line inside a current mode emits when both fields are set and
otherwise resets the mode state and continues; a `]` line inside the target
output `break`s. -/
def swayByNameScan (target : Str) :
    List Str → Bool → Bool → Option Int → Option Int → Option ScreenInfo
  | [], _, _, _, _ => none
  | l :: ls, inT, inC, w, h =>
    let t := rust_trim l
    if rust_starts_with t nameKey && rust_contains t target then
      swayByNameScan target ls true inC w h
    else if inT && rust_contains t currentTrueKey then
      swayByNameScan target ls inT true w h
    else if inT && inC && rust_starts_with t widthKey then
      swayByNameScan target ls inT inC (updateField t w) h
    else if inT && inC && rust_starts_with t heightKey then
      swayByNameScan target ls inT inC w (updateField t h)
    else if inC && t = ['\x7d'] then
      match w, h with
      | some a, some b => some ⟨a, b⟩
      | _, _ => swayByNameScan target ls inT false none none
    else if inT && t = [']'] then none
    else swayByNameScan target ls inT inC w h

/-- `ScreenInfo::parse_sway_output_by_name` (lines 199–234). -/
def parse_sway_output_by_name (ls : List Str) (target : Str) : Option ScreenInfo :=
  swayByNameScan target ls false false none none

/-- `ScreenInfo::detect_sway_focused` (lines 148–197): `ws` is the outcome
of `swaymsg -t get_workspaces`, `outs` of `swaymsg -t get_outputs` (the
latter is only run when a focused output name was extracted). -/
def detect_sway_focused (ws outs : Option (List Str)) : Option ScreenInfo :=
  match ws with
  | none => none
  | some wsLines =>
    match swayWorkspaceOutputName wsLines with
    | none => none
    | some output_name =>
      match outs with
      | none => none
      | some outLines => parse_sway_output_by_name outLines output_name

/-! ## Sysfs parse (`parse_drm_modes`, lines 511–523) -/

/-- `ScreenInfo::parse_drm_modes` (lines 511–523): first line of the modes
file splitting as `WxH` with both halves numeric. -/
def parse_drm_modes : List Str → Option ScreenInfo
  | [] => none
  | l :: ls =>
    let t := rust_trim l
    match splitOnce t 'x' with
    | some (width_str, height_str) =>
      match parseIntRust width_str, parseIntRust height_str with
      | some width, some height => some ⟨width, height⟩
      | _, _ => parse_drm_modes ls
    | none => parse_drm_modes ls

/-! ## X11 geometry (lines 283–404) -/

/-- A parsed xrandr geometry entry `WxH+X+Y`. -/
structure Geom where
  w : Int
  h : Int
  sx : Int
  sy : Int
deriving DecidableEq, Repr

/-- The positional-string scan of lines 304–312: `split_once('+')` into
resolution and position, `split_once('x')` on the resolution,
`split_once('+')` on the position, then the four numeric parses. -/
def parseGeometryToken (part : Str) : Option Geom :=
  match splitOnce part '+' with
  | none => none
  | some (res_part, pos_part) =>
    match splitOnce res_part 'x' with
    | none => none
    | some (width_str, height_str) =>
      match splitOnce pos_part '+' with
      | none => none
      | some (x_str, y_str) =>
        match parseIntRust width_str, parseIntRust height_str,
              parseIntRust x_str, parseIntRust y_str with
        | some w, some h, some sx, some sy => some ⟨w, h, sx, sy⟩
        | _, _, _, _ => none

/-- The containment test of lines 316–317: the cursor `(x, y)` lies inside
the rectangle of `g` (`x >= screen_x && x < screen_x + width && ...`). -/
def containsPt (x y : Int) (g : Geom) : Prop :=
  g.sx ≤ x ∧ x < g.sx + g.w ∧ g.sy ≤ y ∧ y < g.sy + g.h

instance (x y : Int) (g : Geom) : Decidable (containsPt x y g) := by
  unfold containsPt; infer_instance

/-- The per-axis edge distance of lines 323–329 (x axis): zero inside the
span, else the gap to the nearest covered coordinate. -/
def distX (x : Int) (g : Geom) : Int :=
  if x < g.sx then g.sx - x
  else if x ≥ g.sx + g.w then x - (g.sx + g.w - 1)
  else 0

/-- The per-axis edge distance of lines 331–337 (y axis). -/
def distY (y : Int) (g : Geom) : Int :=
  if y < g.sy then g.sy - y
  else if y ≥ g.sy + g.h then y - (g.sy + g.h - 1)
  else 0

/-- `total_distance` of line 339. -/
def distTo (x y : Int) (g : Geom) : Int := distX x g + distY y g

/-- `i32::MAX`, the initial `closest_distance` of line 294. -/
def i32Max : Int := 2147483647

/-- The per-line geometry extraction of lines 298–314: a line counts only if
it contains `connected` but not `disconnected`; among its whitespace tokens
only the first containing both `x` and `+` is considered (the loop `break`s
after it, line 349), and it must parse as `WxH+X+Y`. -/
def lineEntry (l : Str) : Option Geom :=
  if rust_contains l (toL "connected") && !rust_contains l (toL "disconnected") then
    match (splitWhitespace l).find? (fun p =>
        rust_contains p (toL "x") && rust_contains p (toL "+")) with
    | some part => parseGeometryToken part
    | none => none
  else none

/-- The line loop of `get_x11_screen_at_position` (lines 297–353) with the
running `closest_screen` / `closest_distance` state explicit: a parsed entry
containing the cursor returns immediately; otherwise the entry replaces the
running closest exactly when its total distance is strictly smaller. -/
def x11Loop (x y : Int) : List Str → Option ScreenInfo → Int → Option ScreenInfo
  | [], closest, _ => closest
  | l :: ls, closest, closestDist =>
    match lineEntry l with
    | none => x11Loop x y ls closest closestDist
    | some g =>
      if containsPt x y g then some ⟨g.w, g.h⟩
      else if distTo x y g < closestDist then
        x11Loop x y ls (some ⟨g.w, g.h⟩) (distTo x y g)
      else x11Loop x y ls closest closestDist

/-- `ScreenInfo::get_x11_screen_at_position` (lines 283–363) after a
successful `xrandr --current` run with output lines `ls`: the final
`closest_screen` if no entry contained the cursor (`none` models the
trailing `Err`). -/
def get_x11_screen_at_position (x y : Int) (ls : List Str) : Option ScreenInfo :=
  x11Loop x y ls none i32Max

/-! ## X11 primary parse (`parse_xrandr_primary`, lines 365–383) -/

/-- The token loop of lines 368–379: every token containing `x` and `+` is
tried (no `break`), taking the text before the first `+` as `WxH`. -/
def xrandrPrimaryParts : List Str → Option ScreenInfo
  | [] => none
  | part :: ps =>
    if rust_contains part (toL "x") && rust_contains part (toL "+") then
      match splitOnce part '+' with
      | some (res_part, _) =>
        match splitOnce res_part 'x' with
        | some (width_str, height_str) =>
          match parseIntRust width_str, parseIntRust height_str with
          | some width, some height => some ⟨width, height⟩
          | _, _ => xrandrPrimaryParts ps
        | none => xrandrPrimaryParts ps
      | none => xrandrPrimaryParts ps
    else xrandrPrimaryParts ps

/-- `ScreenInfo::parse_xrandr_primary` (lines 365–383): first line containing
both `primary` and `connected` whose tokens yield a parse. -/
def parse_xrandr_primary : List Str → Option ScreenInfo
  | [] => none
  | l :: ls =>
    if rust_contains l (toL "primary") && rust_contains l (toL "connected") then
      match xrandrPrimaryParts (splitWhitespace l) with
      | some r => some r
      | none => parse_xrandr_primary ls
    else parse_xrandr_primary ls


/-! ## X11 any-connected parse (`parse_xrandr_any_connected`, lines 385–404)

Its token loop (lines 389–399) is textually identical to the one of
`parse_xrandr_primary` (lines 369–379), so both are modelled by the shared
`xrandrPrimaryParts`; only the line filter differs. -/

/-- `ScreenInfo::parse_xrandr_any_connected` (lines 385–404): first line
containing `connected` but not `disconnected` whose tokens yield a parse. -/
def parse_xrandr_any_connected : List Str → Option ScreenInfo
  | [] => none
  | l :: ls =>
    if rust_contains l (toL "connected") && !rust_contains l (toL "disconnected") then
      match xrandrPrimaryParts (splitWhitespace l) with
      | some r => some r
      | none => parse_xrandr_any_connected ls
    else parse_xrandr_any_connected ls

/-! ## Generic Wayland parse (`parse_wlr_randr_output`, lines 406–420) -/

/-- `ScreenInfo::parse_wlr_randr_output` (lines 406–420): on a line
containing `current`, take the first whitespace token of the trimmed line
and split it as `WxH`; any failure falls through to the next line. -/
def parse_wlr_randr_output : List Str → Option ScreenInfo
  | [] => none
  | l :: ls =>
    if rust_contains l (toL "current") then
      match (splitWhitespace (rust_trim l)).head? with
      | some resolution_part =>
        match splitOnce resolution_part 'x' with
        | some (width_str, height_str) =>
          match parseIntRust width_str, parseIntRust height_str with
          | some width, some height => some ⟨width, height⟩
          | _, _ => parse_wlr_randr_output ls
        | none => parse_wlr_randr_output ls
      | none => parse_wlr_randr_output ls
    else parse_wlr_randr_output ls

/-! ## Sway primary parse (`parse_swaymsg_output`, lines 450–485)

In the source the lone-brace check (lines 474–482) is a separate `if` run
after the field branches on every iteration, with the post-branch state.  A
line matching one of the three field branches is never the lone `}` (it
contains `"current": true` or starts with a field key), and a lone `}` line
matches none of them (leaving the state unchanged), so the check is
modelled as the final branch of the chain. -/

/-- The line loop of `parse_swaymsg_output` (lines 457–483), with the state
`in_current_mode` / `width` / `height` explicit. -/
def swaymsgScan : List Str → Bool → Option Int → Option Int → Option ScreenInfo
  | [], _, _, _ => none
  | l :: ls, inC, w, h =>
    let t := rust_trim l
    if rust_contains t currentTrueKey then swaymsgScan ls true w h
    else if inC && rust_starts_with t widthKey then
      swaymsgScan ls inC (updateField t w) h
    else if inC && rust_starts_with t heightKey then
      swaymsgScan ls inC w (updateField t h)
    else if inC && t = ['\x7d'] then
      match w, h with
      | some a, some b => some ⟨a, b⟩
      | _, _ => swaymsgScan ls false none none
    else swaymsgScan ls inC w h

/-- `ScreenInfo::parse_swaymsg_output` (lines 450–485). -/
def parse_swaymsg_output (ls : List Str) : Option ScreenInfo :=
  swaymsgScan ls false none none

/-! ## Spec-side selection (for the refinement claim about the X11 probe)

The following definition follows the WORDS OF THE SPEC, not the source: "the
entry whose rectangle contains the point is selected immediately regardless
of distance ranking; if no rectangle contains the point, the entry
minimizing the sum of per-axis edge distances is selected, and on an exact
distance tie the first-encountered entry wins."  It is compared with the
source-derived loop `x11Loop`. -/

/-- Spec-side description of the X11 mouse-based selection over the parsed
geometry entries: first containing entry, else first entry whose total
distance is a minimum over all entries. -/
def x11SpecSelect (x y : Int) (gs : List Geom) : Option ScreenInfo :=
  match gs.find? (fun g => decide (containsPt x y g)) with
  | some g => some ⟨g.w, g.h⟩
  | none =>
    (gs.find? (fun g => gs.all (fun g2 => decide (distTo x y g ≤ distTo x y g2)))).map
      (fun g => ⟨g.w, g.h⟩)

/-! ## Toolkit: facts about the string primitives -/

theorem isPrefixOf_append_right (p t : Str) : p.isPrefixOf (p ++ t) = true := by
  induction p with
  | nil => simp [List.isPrefixOf]
  | cons c p ih => simp [List.isPrefixOf, ih]

theorem isPrefixOf_exists {p l : Str} (h : p.isPrefixOf l = true) :
    ∃ t, l = p ++ t := by
  induction p generalizing l with
  | nil => exact ⟨l, rfl⟩
  | cons c p ih =>
    cases l with
    | nil => simp [List.isPrefixOf] at h
    | cons d t =>
      simp only [List.isPrefixOf, Bool.and_eq_true, beq_iff_eq] at h
      obtain ⟨rfl, h2⟩ := h
      obtain ⟨t', rfl⟩ := ih h2
      exact ⟨t', rfl⟩

theorem rust_contains_nil_pat (l : Str) : rust_contains l [] = true := by
  cases l <;> simp [rust_contains, List.isPrefixOf]

theorem rust_contains_append (a b pat : Str) :
    rust_contains (a ++ (pat ++ b)) pat = true := by
  induction a with
  | nil =>
    cases pat with
    | nil => simpa using rust_contains_nil_pat b
    | cons c p =>
      simp only [List.nil_append, List.cons_append, rust_contains]
      have : (c :: p).isPrefixOf ((c :: p) ++ b) = true := isPrefixOf_append_right _ _
      simp only [List.cons_append] at this
      simp [this]
  | cons c a ih =>
    simp only [List.cons_append]
    rw [rust_contains]
    simp [ih]

theorem rust_contains_exists {hay pat : Str} (h : rust_contains hay pat = true) :
    ∃ u v, hay = u ++ pat ++ v := by
  induction hay with
  | nil =>
    cases pat with
    | nil => exact ⟨[], [], rfl⟩
    | cons c p => simp [rust_contains, List.isPrefixOf] at h
  | cons c t ih =>
    rw [rust_contains, Bool.or_eq_true] at h
    rcases h with h | h
    · obtain ⟨t', ht⟩ := isPrefixOf_exists h
      exact ⟨[], t', by simp [ht]⟩
    · obtain ⟨u, v, huv⟩ := ih h
      exact ⟨c :: u, v, by simp [huv]⟩

theorem rust_contains_trans_ctx {other target : Str} (a b : Str)
    (h : rust_contains other target = true) :
    rust_contains (a ++ other ++ b) target = true := by
  obtain ⟨u, v, rfl⟩ := rust_contains_exists h
  have he : a ++ (u ++ target ++ v) ++ b = (a ++ u) ++ (target ++ (v ++ b)) := by simp
  rw [he]
  exact rust_contains_append _ _ _

theorem rust_contains_mem {hay pat : Str} (h : rust_contains hay pat = true) :
    ∀ c ∈ pat, c ∈ hay := by
  obtain ⟨u, v, rfl⟩ := rust_contains_exists h
  intro c hc
  simp [hc]

theorem rust_contains_false_of_not_mem {hay pat : Str} {c : Char}
    (hc : c ∈ pat) (hhay : c ∉ hay) : rust_contains hay pat = false := by
  cases h : rust_contains hay pat with
  | false => rfl
  | true => exact absurd (rust_contains_mem h c hc) hhay

theorem splitOnce_append {a : Str} (b : Str) {ch : Char} (ha : ch ∉ a) :
    splitOnce (a ++ ch :: b) ch = some (a, b) := by
  induction a with
  | nil => simp [splitOnce]
  | cons c a ih =>
    have hc : ¬(c = ch) := fun e => ha (by simp [e])
    have ha' : ch ∉ a := fun e => ha (by simp [e])
    simp [splitOnce, hc, ih ha']

theorem splitOnce_none_of {l : Str} {ch : Char} (h : ∀ c ∈ l, c ≠ ch) :
    splitOnce l ch = none := by
  induction l with
  | nil => rfl
  | cons c t ih =>
    have hc : ¬(c = ch) := h c (by simp)
    simp [splitOnce, hc, ih fun d hd => h d (by simp [hd])]

theorem splitOnce_eq_some {l a b : Str} {ch : Char}
    (h : splitOnce l ch = some (a, b)) : l = a ++ ch :: b ∧ ch ∉ a := by
  induction l generalizing a with
  | nil => simp [splitOnce] at h
  | cons c t ih =>
    by_cases hc : c = ch
    · subst hc
      simp only [splitOnce, if_pos rfl, Option.some.injEq, Prod.mk.injEq] at h
      obtain ⟨rfl, rfl⟩ := h
      exact ⟨rfl, by simp⟩
    · rw [splitOnce, if_neg hc] at h
      cases hs : splitOnce t ch with
      | none => rw [hs] at h; exact absurd h (by simp)
      | some p =>
        rw [hs] at h
        simp only [Option.map_some', Option.some.injEq, Prod.mk.injEq] at h
        obtain ⟨h1, h2⟩ := h
        obtain ⟨p1, p2⟩ := p
        subst h2
        obtain ⟨ht, hni⟩ := ih hs
        cases a with
        | nil => simp at h1
        | cons a0 a' =>
          simp only [List.cons.injEq] at h1
          obtain ⟨rfl, rfl⟩ := h1
          refine ⟨by simp [ht], ?_⟩
          intro hmem
          rcases List.mem_cons.mp hmem with rfl | hmem
          · exact hc rfl
          · exact hni hmem

theorem parseNatRust_chars {m : Str} {k : Nat} (hm : parseNatRust m = some k) :
    ∀ c ∈ m, c.isDigit = true := by
  intro c hc
  unfold parseNatRust at hm
  split at hm
  · next hcond => exact List.all_eq_true.mp hcond.2 c hc
  · exact absurd hm (by simp)

theorem parseIntRust_chars {l : Str} {n : Int} (h : parseIntRust l = some n) :
    ∀ c ∈ l, c.isDigit = true ∨ c = '-' := by
  intro c hc
  unfold parseIntRust at h
  split at h
  · next hhead =>
    cases l with
    | nil => simp at hc
    | cons c0 t =>
      obtain rfl : c0 = '-' := by simpa using hhead
      cases hp : parseNatRust t with
      | none => rw [List.tail_cons, hp] at h; exact absurd h (by simp)
      | some k =>
        rcases List.mem_cons.mp hc with rfl | hc'
        · exact Or.inr rfl
        · exact Or.inl (parseNatRust_chars hp c hc')
  · cases hp : parseNatRust l with
    | none => rw [hp] at h; exact absurd h (by simp)
    | some k => exact Or.inl (parseNatRust_chars hp c hc)

theorem parseIntRust_ne_nil {l : Str} {n : Int} (h : parseIntRust l = some n) :
    l ≠ [] := by
  rintro rfl
  simp [parseIntRust, parseNatRust] at h

theorem numChar_ne {c ch : Char} (h : c.isDigit = true ∨ c = '-')
    (h1 : ch.isDigit = false) (h2 : ch ≠ '-') : c ≠ ch := by
  rintro rfl
  rcases h with h | h
  · rw [h] at h1; cases h1
  · exact h2 h

theorem numChar_not_ws {c : Char} (h : c.isDigit = true ∨ c = '-') :
    isWS c = false := by
  have hsp : c ≠ ' ' := numChar_ne h (by decide) (by decide)
  have hta : c ≠ '\t' := numChar_ne h (by decide) (by decide)
  have hnl : c ≠ '\n' := numChar_ne h (by decide) (by decide)
  have hcr : c ≠ '\r' := numChar_ne h (by decide) (by decide)
  simp [isWS, hsp, hta, hnl, hcr]

/-! ## Toolkit: trimming schematic lines -/

theorem ltrimWS_cons {c : Char} (t : Str) (hc : isWS c = false) :
    ltrimWS (c :: t) = c :: t := by
  simp [ltrimWS, List.dropWhile_cons, hc]

theorem rtrimWS_concat (a : Str) {d : Char} (hd : isWS d = false) :
    rtrimWS (a ++ [d]) = a ++ [d] := by
  simp [rtrimWS, List.reverse_append, List.dropWhile_cons, hd]

theorem rtrimWS_append_nonWS (a : Str) {b : Str} (hb : b ≠ [])
    (h : ∀ c ∈ b, isWS c = false) : rtrimWS (a ++ b) = a ++ b := by
  rcases List.eq_nil_or_concat b with rfl | ⟨L, d, rfl⟩
  · exact absurd rfl hb
  · simp only [List.concat_eq_append] at h ⊢
    rw [show a ++ (L ++ [d]) = (a ++ L) ++ [d] by simp]
    exact rtrimWS_concat _ (h d (by simp))

theorem rust_trim_cons_append {c : Char} (m : Str) {b : Str}
    (hc : isWS c = false) (hb : b ≠ []) (h : ∀ d ∈ b, isWS d = false) :
    rust_trim (c :: (m ++ b)) = c :: (m ++ b) := by
  rw [rust_trim, ltrimWS_cons _ hc,
    show c :: (m ++ b) = (c :: m) ++ b by simp,
    rtrimWS_append_nonWS _ hb h]

theorem trimEndComma_append (a : Str) {b : Str} (hb : b ≠ [])
    (h : ∀ c ∈ b, c ≠ ',') : trimEndComma (a ++ b) = a ++ b := by
  rcases List.eq_nil_or_concat b with rfl | ⟨L, d, rfl⟩
  · exact absurd rfl hb
  · simp only [List.concat_eq_append] at h ⊢
    rw [show a ++ (L ++ [d]) = (a ++ L) ++ [d] by simp]
    have hd : ¬(d = ',') := h d (by simp)
    simp [trimEndComma, List.reverse_append, List.dropWhile_cons, hd]

theorem trimEndComma_of_all {l : Str} (hb : l ≠ []) (h : ∀ c ∈ l, c ≠ ',') :
    trimEndComma l = l := by
  simpa using trimEndComma_append [] hb h

theorem ltrimWS_of_all {l : Str} (h : ∀ c ∈ l, isWS c = false) :
    ltrimWS l = l := by
  cases l with
  | nil => rfl
  | cons c t => exact ltrimWS_cons _ (h c (by simp))

theorem rust_trim_of_all {l : Str} (hb : l ≠ []) (h : ∀ c ∈ l, isWS c = false) :
    rust_trim l = l := by
  rw [rust_trim, ltrimWS_of_all h]
  simpa using rtrimWS_append_nonWS [] hb h

/-! ## Toolkit: `List.find?` decompositions -/

theorem find?_append_cons {α : Type} {p : α → Bool} {l1 : List α} {a : α}
    (l2 : List α) (h1 : ∀ x ∈ l1, p x = false) (h2 : p a = true) :
    List.find? p (l1 ++ a :: l2) = some a := by
  induction l1 with
  | nil => simp [List.find?_cons, h2]
  | cons x l1 ih =>
    have hx : p x = false := h1 x (by simp)
    simp only [List.cons_append, List.find?_cons, hx]
    exact ih fun y hy => h1 y (by simp [hy])

theorem find?_eq_some_decomp {α : Type} {p : α → Bool} {l : List α} {a : α}
    (h : List.find? p l = some a) :
    ∃ l1 l2, l = l1 ++ a :: l2 ∧ p a = true ∧ ∀ x ∈ l1, p x = false := by
  induction l with
  | nil => simp at h
  | cons x l ih =>
    cases hx : p x with
    | true =>
      rw [List.find?_cons, hx] at h
      obtain rfl : x = a := by simpa using h
      exact ⟨[], l, rfl, hx, by simp⟩
    | false =>
      rw [List.find?_cons, hx] at h
      obtain ⟨l1, l2, rfl, hpa, hl1⟩ := ih h
      exact ⟨x :: l1, l2, rfl, hpa, by
        intro y hy
        rcases List.mem_cons.mp hy with rfl | hy'
        · exact hx
        · exact hl1 y hy'⟩

/-! ## Claim C1 -/

/-- Claim C1: the detection entry point `detect` returns a `ScreenInfo`
unconditionally (its type has no failure case), and whenever every one of
the four detection stages fails it returns the hard-coded default
`{1920, 1080}`. -/
theorem C1_detect_unconditional_default (a b c d : Option ScreenInfo)
    (ha : a = none) (hb : b = none) (hc : c = none) (hd : d = none) :
    detect a b c d = ⟨1920, 1080⟩ := by
  subst ha hb hc hd
  rfl

/-- Witness for C1: all four stages failing at a concrete input. -/
theorem C1_witness : detect none none none none = ⟨1920, 1080⟩ :=
  C1_detect_unconditional_default none none none none rfl rfl rfl rfl

/-! ## Claim C2 -/

/-- Claim C2: the orchestrator tries its stages in the fixed order
Wayland-focused, Wayland-primary, X11/XWayland-focused, sysfs; for every
combination of stage outcomes a stage function is invoked exactly when every
prior stage failed, no stage is invoked twice, the invocation order is the
fixed priority order, and the result is the first succeeding stage's value
unchanged (`List.findSome? id` over the outcomes in priority order). -/
theorem C2_stage_order (a b c d : Option ScreenInfo) :
    detect_linux a b c d = [a, b, c, d].findSome? id
    ∧ Stage.waylandFocused ∈ detectAttempts a b c
    ∧ (Stage.waylandPrimary ∈ detectAttempts a b c ↔ a = none)
    ∧ (Stage.x11Focused ∈ detectAttempts a b c ↔ a = none ∧ b = none)
    ∧ (Stage.sysfs ∈ detectAttempts a b c ↔ a = none ∧ b = none ∧ c = none)
    ∧ (detectAttempts a b c).Nodup
    ∧ (detectAttempts a b c).Sublist
        [Stage.waylandFocused, Stage.waylandPrimary, Stage.x11Focused, Stage.sysfs] := by
  rcases a with _ | ra <;> rcases b with _ | rb <;> rcases c with _ | rc <;>
    rcases d with _ | rd <;>
      exact ⟨by simp [detect_linux, List.findSome?], by simp [detectAttempts],
        by simp [detectAttempts], by simp [detectAttempts], by simp [detectAttempts],
        by simp [detectAttempts], by simp [detectAttempts]⟩

/-! ## Claim C8 -/

/-- Claim C8 counterexample: the detection core consumes no configuration at
all — `detect_linux` (src/screen/mod.rs lines 26–49) takes no parameters
and reads no `ScreenConfig` — so even with `allow_x11_fallback := false` in
the program's configuration, the X11/XWayland stage is still attempted once
both Wayland stages have failed, and its result is returned. -/
theorem C8_counterexample :
    (⟨true, false, true⟩ : ScreenConfig).allow_x11_fallback = false
    ∧ Stage.x11Focused ∈ detectAttempts none none (some ⟨800, 600⟩)
    ∧ detect_linux none none (some ⟨800, 600⟩) none = some ⟨800, 600⟩ :=
  ⟨rfl, by simp [detectAttempts], rfl⟩

/-- Claim C8 (amended): the detection core does not consume
`allow_x11_fallback` (no configuration value reaches `detect_linux`); the
X11/XWayland stage is attempted whenever both Wayland stages fail,
regardless of any `ScreenConfig` value (note the unused `_cfg` binder), and
its outcome decides the remaining chain. -/
theorem C8_amended_x11_unconditional (_cfg : ScreenConfig) (c d : Option ScreenInfo) :
    Stage.x11Focused ∈ detectAttempts none none c
    ∧ detect_linux none none c d = [c, d].findSome? id := by
  rcases c with _ | rc <;> rcases d with _ | rd <;>
    exact ⟨by simp [detectAttempts], by simp [detect_linux, List.findSome?]⟩

/-! ## Helper lemmas about the field-extraction idiom and the scanners -/

theorem updateField_indep {t pre : Str} (hpre : ':' ∉ pre)
    (h : rust_starts_with t (pre ++ [':']) = true) (o o' : Option Int) :
    updateField t o = updateField t o' := by
  obtain ⟨rest, rfl⟩ := isPrefixOf_exists h
  have hs : splitOnce ((pre ++ [':']) ++ rest) ':' = some (pre, rest) := by
    rw [show (pre ++ [':']) ++ rest = pre ++ ':' :: rest by simp]
    exact splitOnce_append _ hpre
  rw [updateField, updateField, splitNth1, hs]
  rfl

theorem widthKey_decomp : widthKey = toL "\"width\"" ++ [':'] := by decide

theorem heightKey_decomp : heightKey = toL "\"height\"" ++ [':'] := by decide

theorem updateField_indep_width {t : Str}
    (h : rust_starts_with t widthKey = true) (o o' : Option Int) :
    updateField t o = updateField t o' := by
  rw [widthKey_decomp] at h
  exact updateField_indep (by decide) h o o'

theorem updateField_indep_height {t : Str}
    (h : rust_starts_with t heightKey = true) (o o' : Option Int) :
    updateField t o = updateField t o' := by
  rw [heightKey_decomp] at h
  exact updateField_indep (by decide) h o o'

/-- Field provenance for the ungated Hyprland primary scan: a surfaced value
either comes from a field line of the document or was already held in the
accumulator when the scan started. -/
theorem hyprctlScan_provenance : ∀ (ls : List Str) (w h : Option Int) (r : ScreenInfo),
    hyprctlScan ls w h = some r →
    ((∃ l ∈ ls, rust_starts_with (rust_trim l) widthKey = true ∧
        updateField (rust_trim l) none = some r.width) ∨ w = some r.width)
    ∧ ((∃ l ∈ ls, rust_starts_with (rust_trim l) heightKey = true ∧
        updateField (rust_trim l) none = some r.height) ∨ h = some r.height) := by
  intro ls
  induction ls with
  | nil => intro w h r hscan; exact absurd hscan (by simp [hyprctlScan])
  | cons l ls ih =>
    intro w h r hscan
    simp only [hyprctlScan] at hscan
    by_cases hw : rust_starts_with (rust_trim l) widthKey = true
    · rw [if_pos hw] at hscan
      rcases hm : updateField (rust_trim l) w with _ | a <;> rw [hm] at hscan
      · rcases h with _ | b
        · obtain ⟨h1, h2⟩ := ih _ _ _ hscan
          refine ⟨?_, ?_⟩
          · rcases h1 with ⟨l', hl', hp⟩ | hval
            · exact Or.inl ⟨l', by simp [hl'], hp⟩
            · exact Option.noConfusion hval
          · rcases h2 with ⟨l', hl', hp⟩ | hval
            · exact Or.inl ⟨l', by simp [hl'], hp⟩
            · exact Option.noConfusion hval
        · obtain ⟨h1, h2⟩ := ih _ _ _ hscan
          refine ⟨?_, ?_⟩
          · rcases h1 with ⟨l', hl', hp⟩ | hval
            · exact Or.inl ⟨l', by simp [hl'], hp⟩
            · exact Option.noConfusion hval
          · rcases h2 with ⟨l', hl', hp⟩ | hval
            · exact Or.inl ⟨l', by simp [hl'], hp⟩
            · exact Or.inr hval
      · rcases h with _ | b
        · obtain ⟨h1, h2⟩ := ih _ _ _ hscan
          refine ⟨?_, ?_⟩
          · rcases h1 with ⟨l', hl', hp⟩ | hval
            · exact Or.inl ⟨l', by simp [hl'], hp⟩
            · obtain rfl : a = r.width := by simpa using hval
              exact Or.inl ⟨l, by simp, hw,
                by rw [updateField_indep_width hw none w, hm]⟩
          · rcases h2 with ⟨l', hl', hp⟩ | hval
            · exact Or.inl ⟨l', by simp [hl'], hp⟩
            · exact Option.noConfusion hval
        · obtain rfl : (⟨a, b⟩ : ScreenInfo) = r := by simpa using hscan
          refine ⟨?_, Or.inr rfl⟩
          exact Or.inl ⟨l, by simp, hw,
            by rw [updateField_indep_width hw none w, hm]⟩
    · rw [if_neg hw] at hscan
      by_cases hhk : rust_starts_with (rust_trim l) heightKey = true
      · rw [if_pos hhk] at hscan
        rcases hm : updateField (rust_trim l) h with _ | b <;> rw [hm] at hscan
        · rcases w with _ | a
          · obtain ⟨h1, h2⟩ := ih _ _ _ hscan
            refine ⟨?_, ?_⟩
            · rcases h1 with ⟨l', hl', hp⟩ | hval
              · exact Or.inl ⟨l', by simp [hl'], hp⟩
              · exact Option.noConfusion hval
            · rcases h2 with ⟨l', hl', hp⟩ | hval
              · exact Or.inl ⟨l', by simp [hl'], hp⟩
              · exact Option.noConfusion hval
          · obtain ⟨h1, h2⟩ := ih _ _ _ hscan
            refine ⟨?_, ?_⟩
            · rcases h1 with ⟨l', hl', hp⟩ | hval
              · exact Or.inl ⟨l', by simp [hl'], hp⟩
              · exact Or.inr hval
            · rcases h2 with ⟨l', hl', hp⟩ | hval
              · exact Or.inl ⟨l', by simp [hl'], hp⟩
              · exact Option.noConfusion hval
        · rcases w with _ | a
          · obtain ⟨h1, h2⟩ := ih _ _ _ hscan
            refine ⟨?_, ?_⟩
            · rcases h1 with ⟨l', hl', hp⟩ | hval
              · exact Or.inl ⟨l', by simp [hl'], hp⟩
              · exact Option.noConfusion hval
            · rcases h2 with ⟨l', hl', hp⟩ | hval
              · exact Or.inl ⟨l', by simp [hl'], hp⟩
              · obtain rfl : b = r.height := by simpa using hval
                exact Or.inl ⟨l, by simp, hhk,
                  by rw [updateField_indep_height hhk none h, hm]⟩
          · obtain rfl : (⟨a, b⟩ : ScreenInfo) = r := by simpa using hscan
            refine ⟨Or.inr rfl, ?_⟩
            exact Or.inl ⟨l, by simp, hhk,
              by rw [updateField_indep_height hhk none h, hm]⟩
      · rw [if_neg hhk] at hscan
        rcases w with _ | a <;> rcases h with _ | b
        · obtain ⟨h1, h2⟩ := ih _ _ _ hscan
          refine ⟨?_, ?_⟩
          · rcases h1 with ⟨l', hl', hp⟩ | hval
            · exact Or.inl ⟨l', by simp [hl'], hp⟩
            · exact Option.noConfusion hval
          · rcases h2 with ⟨l', hl', hp⟩ | hval
            · exact Or.inl ⟨l', by simp [hl'], hp⟩
            · exact Option.noConfusion hval
        · obtain ⟨h1, h2⟩ := ih _ _ _ hscan
          refine ⟨?_, ?_⟩
          · rcases h1 with ⟨l', hl', hp⟩ | hval
            · exact Or.inl ⟨l', by simp [hl'], hp⟩
            · exact Option.noConfusion hval
          · rcases h2 with ⟨l', hl', hp⟩ | hval
            · exact Or.inl ⟨l', by simp [hl'], hp⟩
            · exact Or.inr hval
        · obtain ⟨h1, h2⟩ := ih _ _ _ hscan
          refine ⟨?_, ?_⟩
          · rcases h1 with ⟨l', hl', hp⟩ | hval
            · exact Or.inl ⟨l', by simp [hl'], hp⟩
            · exact Or.inr hval
          · rcases h2 with ⟨l', hl', hp⟩ | hval
            · exact Or.inl ⟨l', by simp [hl'], hp⟩
            · exact Option.noConfusion hval
        · obtain rfl : (⟨a, b⟩ : ScreenInfo) = r := by simpa using hscan
          exact ⟨Or.inr rfl, Or.inr rfl⟩

/-! ## Claim C9 -/

/-- Claim C9 counterexample: `parse_hyprctl_output` does NOT use the first
`"width":` value of the document.  On a document whose lines are
`"width": 100,` / `"width": 200,` / `"height": 300,` the first width value
is `100`, yet the parser returns `{200, 300}`: a later width line seen
before the first height line overwrites the accumulator. -/
theorem C9_counterexample :
    parse_hyprctl_output
      [toL "\"width\": 100,", toL "\"width\": 200,", toL "\"height\": 300,"]
      = some ⟨200, 300⟩
    ∧ (⟨200, 300⟩ : ScreenInfo) ≠ ⟨100, 300⟩ :=
  ⟨rfl, by decide⟩

/-- Claim C9 (amended): the Hyprland primary-screen parser returns a
Resolution as soon as both a width and a height value are held, taking for
each field the most recently parsed occurrence (a later `"width":` line
before the first `"height":` line overwrites, and an unparsable occurrence
clears the field), with no restriction to a single object, to a focused
flag, or to an object boundary: each surfaced field comes from some
corresponding field line of the document (first conjunct), and the two
fields can come from records separated by an object boundary (second
conjunct: the accepted document has a lone `}` between the width and height
lines). -/
theorem C9_amended_field_mixing :
    (∀ (ls : List Str) (r : ScreenInfo), parse_hyprctl_output ls = some r →
      (∃ l ∈ ls, rust_starts_with (rust_trim l) widthKey = true ∧
        updateField (rust_trim l) none = some r.width)
      ∧ (∃ l ∈ ls, rust_starts_with (rust_trim l) heightKey = true ∧
        updateField (rust_trim l) none = some r.height))
    ∧ parse_hyprctl_output [toL "\"width\": 100,", toL "\x7d", toL "\"height\": 200,"]
        = some ⟨100, 200⟩ := by
  constructor
  · intro ls r hp
    obtain ⟨h1, h2⟩ := hyprctlScan_provenance ls none none r hp
    refine ⟨?_, ?_⟩
    · rcases h1 with h1 | hval
      · exact h1
      · exact Option.noConfusion hval
    · rcases h2 with h2 | hval
      · exact h2
      · exact Option.noConfusion hval
  · rfl

/-- Witness for C9's amended theorem: field provenance evaluated on a
concrete document. -/
theorem C9_witness :
    (∃ l ∈ [toL "\"width\": 640,", toL "\"height\": 480,"],
      rust_starts_with (rust_trim l) widthKey = true ∧
        updateField (rust_trim l) none = some (640 : Int))
    ∧ (∃ l ∈ [toL "\"width\": 640,", toL "\"height\": 480,"],
      rust_starts_with (rust_trim l) heightKey = true ∧
        updateField (rust_trim l) none = some (480 : Int)) :=
  C9_amended_field_mixing.1 [toL "\"width\": 640,", toL "\"height\": 480,"] ⟨640, 480⟩ rfl

/-! ## Claim C4 -/

/-- Claim C4 counterexample: when the lone closing brace ends a
focus-flagged object that is missing one field, the Hyprland focused scan
does NOT reset the accumulator and continue — it `break`s (line 141), so
the probe fails even though a later focus-flagged object carries both
fields.  The claim predicts `{200, 300}` (the first matching object having
both fields); the code returns no match. -/
theorem C4_counterexample :
    detect_hyprland_focused (some [toL "\"focused\": true", toL "\"width\": 100,",
      toL "\x7d", toL "\"focused\": true", toL "\"width\": 200,",
      toL "\"height\": 300,", toL "\x7d"]) = none :=
  rfl

/-- Claim C4 (amended): when a lone closing brace ends the object being
accumulated by the Hyprland focused scan, a Resolution is emitted and
scanning stops if both width and height were set (first conjunct);
otherwise scanning stops entirely with no match — the accumulator is not
reset and later objects are never considered (second conjunct, for every
continuation of the document).  With no focus-flagged line the scan returns
no match (third conjunct).  Consequently a result is returned exactly when
the first focus-flagged object supplies both fields before its closing
brace: fourth conjunct, the first complete object (`100×200`) wins over a
later one; fifth conjunct, an incomplete first object aborts the scan even
though a complete object follows. -/
theorem C4_amended_first_object :
    (∀ (ls : List Str) (a b : Int),
      hyprFocusedScan (['\x7d'] :: ls) true (some a) (some b) = some ⟨a, b⟩)
    ∧ (∀ (ls : List Str) (w h : Option Int), w = none ∨ h = none →
      hyprFocusedScan (['\x7d'] :: ls) true w h = none)
    ∧ (∀ ls : List Str, (∀ l ∈ ls, rust_contains (rust_trim l) focusedTrueKey = false) →
      ∀ w h, hyprFocusedScan ls false w h = none)
    ∧ detect_hyprland_focused (some [toL "\"focused\": true", toL "\"width\": 100,",
        toL "\"height\": 200,", toL "\x7d", toL "\"focused\": true",
        toL "\"width\": 300,", toL "\"height\": 400,", toL "\x7d"]) = some ⟨100, 200⟩
    ∧ detect_hyprland_focused (some [toL "\"focused\": true", toL "\"width\": 100,",
        toL "\x7d", toL "\"focused\": true", toL "\"width\": 200,",
        toL "\"height\": 300,", toL "\x7d"]) = none := by
  refine ⟨fun ls a b => rfl, ?_, ?_, rfl, rfl⟩
  · rintro ls w h (rfl | rfl)
    · rfl
    · cases w <;> rfl
  · intro ls hnof
    induction ls with
    | nil => intro w h; rfl
    | cons l ls ih =>
      intro w h
      have hc : rust_contains (rust_trim l) focusedTrueKey = false := hnof l (by simp)
      simp only [hyprFocusedScan, hc, Bool.false_eq_true, if_false, Bool.false_and]
      exact ih (fun l' hl' => hnof l' (by simp [hl'])) w h

/-- Witness for C4's amended theorem: the abort-on-incomplete-object branch
and the no-focus-line branch evaluated at concrete inputs. -/
theorem C4_witness :
    hyprFocusedScan [['\x7d'], toL "\"width\": 5,"] true none (some 7) = none
    ∧ hyprFocusedScan [toL "\"width\": 5,"] false none none = none :=
  ⟨C4_amended_first_object.2.1 [toL "\"width\": 5,"] none (some 7) (Or.inl rfl),
   C4_amended_first_object.2.2.1 [toL "\"width\": 5,"] (by decide) none none⟩

/-! ## Claim C3 -/

/-- Claim C3 evaluation at the failing input (code bug): the inner loop of
`detect_sway_focused` (lines 167–176) scans the WHOLE workspace document
from its first line for the first `"output":` field — despite the comment
"Look for output field in the same object" — so with an unfocused workspace
(output `HDMI-1`) listed before the focused one (output `DP-1`), the
extracted name is the first workspace's `HDMI-1` (with a stray trailing
quote, an artifact of applying `trim_matches('"')` before
`trim_end_matches(',')`), and the probe returns `HDMI-1`'s mode `{1024,768}`
instead of the focused output's `{2560,1440}` — which the by-name parser
would have produced for the correct name (third conjunct). -/
theorem C3_bug_evaluation :
    swayWorkspaceOutputName [toL "\x7b", toL "  \"name\": \"1\",",
      toL "  \"output\": \"HDMI-1\",", toL "  \"focused\": false", toL "\x7d,",
      toL "\x7b", toL "  \"name\": \"2\",", toL "  \"output\": \"DP-1\",",
      toL "  \"focused\": true", toL "\x7d"] = some (toL "HDMI-1\"")
    ∧ detect_sway_focused
        (some [toL "\x7b", toL "  \"name\": \"1\",", toL "  \"output\": \"HDMI-1\",",
          toL "  \"focused\": false", toL "\x7d,", toL "\x7b", toL "  \"name\": \"2\",",
          toL "  \"output\": \"DP-1\",", toL "  \"focused\": true", toL "\x7d"])
        (some [toL "  \"name\": \"HDMI-1\",", toL "  \"current\": true",
          toL "  \"width\": 1024,", toL "  \"height\": 768,", toL "  \x7d",
          toL "  \"name\": \"DP-1\",", toL "  \"current\": true",
          toL "  \"width\": 2560,", toL "  \"height\": 1440,", toL "  \x7d"])
        = some ⟨1024, 768⟩
    ∧ parse_sway_output_by_name
        [toL "  \"name\": \"HDMI-1\",", toL "  \"current\": true",
          toL "  \"width\": 1024,", toL "  \"height\": 768,", toL "  \x7d",
          toL "  \"name\": \"DP-1\",", toL "  \"current\": true",
          toL "  \"width\": 2560,", toL "  \"height\": 1440,", toL "  \x7d"]
        (toL "DP-1") = some ⟨2560, 1440⟩ :=
  ⟨rfl, rfl, rfl⟩

/-! ## Helper lemmas: provenance for the sysfs and xrandr parsers -/

theorem parse_drm_modes_provenance : ∀ (ls : List Str) (r : ScreenInfo),
    parse_drm_modes ls = some r →
    ∃ l ∈ ls, ∃ ws hs, splitOnce (rust_trim l) 'x' = some (ws, hs) ∧
      parseIntRust ws = some r.width ∧ parseIntRust hs = some r.height := by
  intro ls
  induction ls with
  | nil => intro r hp; exact absurd hp (by simp [parse_drm_modes])
  | cons l ls ih =>
    intro r hp
    simp only [parse_drm_modes] at hp
    split at hp
    next ws hs hsp =>
      split at hp
      next w hv hpw hph =>
        obtain rfl : (⟨w, hv⟩ : ScreenInfo) = r := by simpa using hp
        exact ⟨l, by simp, ws, hs, hsp, hpw, hph⟩
      next x y hne =>
        obtain ⟨l', hl', rest⟩ := ih r hp
        exact ⟨l', by simp [hl'], rest⟩
    next hsp =>
      obtain ⟨l', hl', rest⟩ := ih r hp
      exact ⟨l', by simp [hl'], rest⟩

theorem xrandrPrimaryParts_provenance : ∀ (ps : List Str) (r : ScreenInfo),
    xrandrPrimaryParts ps = some r →
    ∃ p ∈ ps, ∃ res rest ws hs, splitOnce p '+' = some (res, rest) ∧
      splitOnce res 'x' = some (ws, hs) ∧
      parseIntRust ws = some r.width ∧ parseIntRust hs = some r.height := by
  intro ps
  induction ps with
  | nil => intro r hp; exact absurd hp (by simp [xrandrPrimaryParts])
  | cons p ps ih =>
    intro r hp
    simp only [xrandrPrimaryParts] at hp
    split at hp
    next hx =>
      split at hp
      next res rest hsp =>
        split at hp
        next ws hs hsx =>
          split at hp
          next w hv hpw hph =>
            obtain rfl : (⟨w, hv⟩ : ScreenInfo) = r := by simpa using hp
            exact ⟨p, by simp, res, rest, ws, hs, hsp, hsx, hpw, hph⟩
          next x y hne =>
            obtain ⟨p', hp', rest'⟩ := ih r hp
            exact ⟨p', by simp [hp'], rest'⟩
        next hsx =>
          obtain ⟨p', hp', rest'⟩ := ih r hp
          exact ⟨p', by simp [hp'], rest'⟩
      next hsp =>
        obtain ⟨p', hp', rest'⟩ := ih r hp
        exact ⟨p', by simp [hp'], rest'⟩
    next hx =>
      obtain ⟨p', hp', rest'⟩ := ih r hp
      exact ⟨p', by simp [hp'], rest'⟩

theorem parse_xrandr_primary_provenance : ∀ (ls : List Str) (r : ScreenInfo),
    parse_xrandr_primary ls = some r →
    ∃ l ∈ ls, ∃ p ∈ splitWhitespace l,
      ∃ res rest ws hs, splitOnce p '+' = some (res, rest) ∧
      splitOnce res 'x' = some (ws, hs) ∧
      parseIntRust ws = some r.width ∧ parseIntRust hs = some r.height := by
  intro ls
  induction ls with
  | nil => intro r hp; exact absurd hp (by simp [parse_xrandr_primary])
  | cons l ls ih =>
    intro r hp
    simp only [parse_xrandr_primary] at hp
    split at hp
    next hc =>
      split at hp
      next r' hparts =>
        obtain rfl : r' = r := by simpa using hp
        obtain ⟨p, hpmem, rest'⟩ := xrandrPrimaryParts_provenance _ _ hparts
        exact ⟨l, by simp, p, hpmem, rest'⟩
      next hparts =>
        obtain ⟨l', hl', rest'⟩ := ih r hp
        exact ⟨l', by simp [hl'], rest'⟩
    next hc =>
      obtain ⟨l', hl', rest'⟩ := ih r hp
      exact ⟨l', by simp [hl'], rest'⟩

/-! ## Helper lemmas: field provenance for the remaining probes -/

theorem and_true_right {a b : Bool} (h : (a && b) = true) : b = true := by
  cases a <;> cases b <;> simp_all

/-- Lifting a field-provenance disjunct over a line that leaves the field
untouched. -/
theorem prov_lift {l : Str} {ls : List Str} {key : Str} {v : Option Int} {val : Int}
    (p : (∃ l' ∈ ls, rust_starts_with (rust_trim l') key = true ∧
        updateField (rust_trim l') none = some val) ∨ v = some val) :
    (∃ l' ∈ l :: ls, rust_starts_with (rust_trim l') key = true ∧
        updateField (rust_trim l') none = some val) ∨ v = some val := by
  rcases p with ⟨l', hl', hp⟩ | hval
  · exact Or.inl ⟨l', by simp [hl'], hp⟩
  · exact Or.inr hval

/-- A field set by the current line (whose key carries the colon, so the
extraction ignores the previous value) is provided by that line. -/
theorem prov_update {l : Str} {ls : List Str} {w : Option Int} {val : Int}
    {key pre : Str} (hkey : key = pre ++ [':']) (hpre : ':' ∉ pre)
    (hst : rust_starts_with (rust_trim l) key = true)
    (p : (∃ l' ∈ ls, rust_starts_with (rust_trim l') key = true ∧
        updateField (rust_trim l') none = some val) ∨
        updateField (rust_trim l) w = some val) :
    ∃ l' ∈ l :: ls, rust_starts_with (rust_trim l') key = true ∧
        updateField (rust_trim l') none = some val := by
  rcases p with ⟨l', hl', hp⟩ | hval
  · exact ⟨l', by simp [hl'], hp⟩
  · refine ⟨l, by simp, hst, ?_⟩
    rw [hkey] at hst
    rw [updateField_indep hpre hst none w]
    exact hval

/-- Field provenance for the Hyprland focused scan: a surfaced value either
comes from a field line of the document or was already held when the scan
started. -/
theorem hyprFocusedScan_provenance : ∀ (ls : List Str) (inF : Bool)
    (w h : Option Int) (r : ScreenInfo),
    hyprFocusedScan ls inF w h = some r →
    ((∃ l ∈ ls, rust_starts_with (rust_trim l) widthKey = true ∧
        updateField (rust_trim l) none = some r.width) ∨ w = some r.width)
    ∧ ((∃ l ∈ ls, rust_starts_with (rust_trim l) heightKey = true ∧
        updateField (rust_trim l) none = some r.height) ∨ h = some r.height) := by
  intro ls
  induction ls with
  | nil => intro inF w h r hscan; exact absurd hscan (by simp [hyprFocusedScan])
  | cons l ls ih =>
    intro inF w h r hscan
    simp only [hyprFocusedScan] at hscan
    by_cases h1 : rust_contains (rust_trim l) focusedTrueKey = true
    · rw [if_pos h1] at hscan
      obtain ⟨p1, p2⟩ := ih true w h r hscan
      exact ⟨prov_lift p1, prov_lift p2⟩
    · rw [if_neg h1] at hscan
      by_cases h2 : (inF && rust_starts_with (rust_trim l) widthKey) = true
      · rw [if_pos h2] at hscan
        obtain ⟨p1, p2⟩ := ih inF _ h r hscan
        exact ⟨Or.inl (prov_update widthKey_decomp (by decide)
          (and_true_right h2) p1), prov_lift p2⟩
      · rw [if_neg h2] at hscan
        by_cases h3 : (inF && rust_starts_with (rust_trim l) heightKey) = true
        · rw [if_pos h3] at hscan
          obtain ⟨p1, p2⟩ := ih inF w _ r hscan
          exact ⟨prov_lift p1, Or.inl (prov_update heightKey_decomp (by decide)
            (and_true_right h3) p2)⟩
        · rw [if_neg h3] at hscan
          by_cases h4 : (inF && decide (rust_trim l = ['\x7d'])) = true
          · rw [if_pos h4] at hscan
            rcases w with _ | a <;> rcases h with _ | b
            · exact absurd hscan (by simp)
            · exact absurd hscan (by simp)
            · exact absurd hscan (by simp)
            · obtain rfl : (⟨a, b⟩ : ScreenInfo) = r := by simpa using hscan
              exact ⟨Or.inr rfl, Or.inr rfl⟩
          · rw [if_neg h4] at hscan
            obtain ⟨p1, p2⟩ := ih inF w h r hscan
            exact ⟨prov_lift p1, prov_lift p2⟩

/-- Field provenance for the Sway by-name scan. -/
theorem swayByNameScan_provenance (target : Str) : ∀ (ls : List Str)
    (inT inC : Bool) (w h : Option Int) (r : ScreenInfo),
    swayByNameScan target ls inT inC w h = some r →
    ((∃ l ∈ ls, rust_starts_with (rust_trim l) widthKey = true ∧
        updateField (rust_trim l) none = some r.width) ∨ w = some r.width)
    ∧ ((∃ l ∈ ls, rust_starts_with (rust_trim l) heightKey = true ∧
        updateField (rust_trim l) none = some r.height) ∨ h = some r.height) := by
  intro ls
  induction ls with
  | nil => intro inT inC w h r hscan; exact absurd hscan (by simp [swayByNameScan])
  | cons l ls ih =>
    intro inT inC w h r hscan
    simp only [swayByNameScan] at hscan
    by_cases h1 : (rust_starts_with (rust_trim l) nameKey &&
        rust_contains (rust_trim l) target) = true
    · rw [if_pos h1] at hscan
      obtain ⟨p1, p2⟩ := ih true inC w h r hscan
      exact ⟨prov_lift p1, prov_lift p2⟩
    · rw [if_neg h1] at hscan
      by_cases h2 : (inT && rust_contains (rust_trim l) currentTrueKey) = true
      · rw [if_pos h2] at hscan
        obtain ⟨p1, p2⟩ := ih inT true w h r hscan
        exact ⟨prov_lift p1, prov_lift p2⟩
      · rw [if_neg h2] at hscan
        by_cases h3 : (inT && inC && rust_starts_with (rust_trim l) widthKey) = true
        · rw [if_pos h3] at hscan
          obtain ⟨p1, p2⟩ := ih inT inC _ h r hscan
          exact ⟨Or.inl (prov_update widthKey_decomp (by decide)
            (and_true_right h3) p1), prov_lift p2⟩
        · rw [if_neg h3] at hscan
          by_cases h4 : (inT && inC && rust_starts_with (rust_trim l) heightKey) = true
          · rw [if_pos h4] at hscan
            obtain ⟨p1, p2⟩ := ih inT inC w _ r hscan
            exact ⟨prov_lift p1, Or.inl (prov_update heightKey_decomp (by decide)
              (and_true_right h4) p2)⟩
          · rw [if_neg h4] at hscan
            by_cases h5 : (inC && decide (rust_trim l = ['\x7d'])) = true
            · rw [if_pos h5] at hscan
              rcases w with _ | a <;> rcases h with _ | b
              · obtain ⟨p1, p2⟩ := ih inT false none none r hscan
                refine ⟨prov_lift ?_, prov_lift ?_⟩
                · rcases p1 with p1 | hval
                  · exact Or.inl p1
                  · exact absurd hval (by simp)
                · rcases p2 with p2 | hval
                  · exact Or.inl p2
                  · exact absurd hval (by simp)
              · obtain ⟨p1, p2⟩ := ih inT false none none r hscan
                refine ⟨prov_lift ?_, prov_lift ?_⟩
                · rcases p1 with p1 | hval
                  · exact Or.inl p1
                  · exact absurd hval (by simp)
                · rcases p2 with p2 | hval
                  · exact Or.inl p2
                  · exact absurd hval (by simp)
              · obtain ⟨p1, p2⟩ := ih inT false none none r hscan
                refine ⟨prov_lift ?_, prov_lift ?_⟩
                · rcases p1 with p1 | hval
                  · exact Or.inl p1
                  · exact absurd hval (by simp)
                · rcases p2 with p2 | hval
                  · exact Or.inl p2
                  · exact absurd hval (by simp)
              · obtain rfl : (⟨a, b⟩ : ScreenInfo) = r := by simpa using hscan
                exact ⟨Or.inr rfl, Or.inr rfl⟩
            · rw [if_neg h5] at hscan
              by_cases h6 : (inT && decide (rust_trim l = [']'])) = true
              · rw [if_pos h6] at hscan
                exact absurd hscan (by simp)
              · rw [if_neg h6] at hscan
                obtain ⟨p1, p2⟩ := ih inT inC w h r hscan
                exact ⟨prov_lift p1, prov_lift p2⟩

/-- Field provenance for the Sway primary scan. -/
theorem swaymsgScan_provenance : ∀ (ls : List Str) (inC : Bool)
    (w h : Option Int) (r : ScreenInfo),
    swaymsgScan ls inC w h = some r →
    ((∃ l ∈ ls, rust_starts_with (rust_trim l) widthKey = true ∧
        updateField (rust_trim l) none = some r.width) ∨ w = some r.width)
    ∧ ((∃ l ∈ ls, rust_starts_with (rust_trim l) heightKey = true ∧
        updateField (rust_trim l) none = some r.height) ∨ h = some r.height) := by
  intro ls
  induction ls with
  | nil => intro inC w h r hscan; exact absurd hscan (by simp [swaymsgScan])
  | cons l ls ih =>
    intro inC w h r hscan
    simp only [swaymsgScan] at hscan
    by_cases h1 : rust_contains (rust_trim l) currentTrueKey = true
    · rw [if_pos h1] at hscan
      obtain ⟨p1, p2⟩ := ih true w h r hscan
      exact ⟨prov_lift p1, prov_lift p2⟩
    · rw [if_neg h1] at hscan
      by_cases h2 : (inC && rust_starts_with (rust_trim l) widthKey) = true
      · rw [if_pos h2] at hscan
        obtain ⟨p1, p2⟩ := ih inC _ h r hscan
        exact ⟨Or.inl (prov_update widthKey_decomp (by decide)
          (and_true_right h2) p1), prov_lift p2⟩
      · rw [if_neg h2] at hscan
        by_cases h3 : (inC && rust_starts_with (rust_trim l) heightKey) = true
        · rw [if_pos h3] at hscan
          obtain ⟨p1, p2⟩ := ih inC w _ r hscan
          exact ⟨prov_lift p1, Or.inl (prov_update heightKey_decomp (by decide)
            (and_true_right h3) p2)⟩
        · rw [if_neg h3] at hscan
          by_cases h4 : (inC && decide (rust_trim l = ['\x7d'])) = true
          · rw [if_pos h4] at hscan
            rcases w with _ | a <;> rcases h with _ | b
            · obtain ⟨p1, p2⟩ := ih false none none r hscan
              refine ⟨prov_lift ?_, prov_lift ?_⟩
              · rcases p1 with p1 | hval
                · exact Or.inl p1
                · exact absurd hval (by simp)
              · rcases p2 with p2 | hval
                · exact Or.inl p2
                · exact absurd hval (by simp)
            · obtain ⟨p1, p2⟩ := ih false none none r hscan
              refine ⟨prov_lift ?_, prov_lift ?_⟩
              · rcases p1 with p1 | hval
                · exact Or.inl p1
                · exact absurd hval (by simp)
              · rcases p2 with p2 | hval
                · exact Or.inl p2
                · exact absurd hval (by simp)
            · obtain ⟨p1, p2⟩ := ih false none none r hscan
              refine ⟨prov_lift ?_, prov_lift ?_⟩
              · rcases p1 with p1 | hval
                · exact Or.inl p1
                · exact absurd hval (by simp)
              · rcases p2 with p2 | hval
                · exact Or.inl p2
                · exact absurd hval (by simp)
            · obtain rfl : (⟨a, b⟩ : ScreenInfo) = r := by simpa using hscan
              exact ⟨Or.inr rfl, Or.inr rfl⟩
          · rw [if_neg h4] at hscan
            obtain ⟨p1, p2⟩ := ih inC w h r hscan
            exact ⟨prov_lift p1, prov_lift p2⟩

/-- Provenance for the generic Wayland parse: a result's fields come from
the `WxH` head token of a line containing `current`. -/
theorem parse_wlr_randr_output_provenance : ∀ (ls : List Str) (r : ScreenInfo),
    parse_wlr_randr_output ls = some r →
    ∃ l ∈ ls, rust_contains l (toL "current") = true ∧
      ∃ tok ws hs, (splitWhitespace (rust_trim l)).head? = some tok ∧
        splitOnce tok 'x' = some (ws, hs) ∧
        parseIntRust ws = some r.width ∧ parseIntRust hs = some r.height := by
  intro ls
  induction ls with
  | nil => intro r hp; exact absurd hp (by simp [parse_wlr_randr_output])
  | cons l ls ih =>
    intro r hp
    simp only [parse_wlr_randr_output] at hp
    split at hp
    next hc =>
      split at hp
      next tok htok =>
        split at hp
        next ws hs hsx =>
          split at hp
          next w hv hpw hph =>
            obtain rfl : (⟨w, hv⟩ : ScreenInfo) = r := by simpa using hp
            exact ⟨l, by simp, hc, tok, ws, hs, htok, hsx, hpw, hph⟩
          next x y hne =>
            obtain ⟨l', hl', rest⟩ := ih r hp
            exact ⟨l', by simp [hl'], rest⟩
        next hsx =>
          obtain ⟨l', hl', rest⟩ := ih r hp
          exact ⟨l', by simp [hl'], rest⟩
      next htok =>
        obtain ⟨l', hl', rest⟩ := ih r hp
        exact ⟨l', by simp [hl'], rest⟩
    next hc =>
      obtain ⟨l', hl', rest⟩ := ih r hp
      exact ⟨l', by simp [hl'], rest⟩

/-- Provenance for the X11 any-connected parse, through the shared token
loop. -/
theorem parse_xrandr_any_connected_provenance : ∀ (ls : List Str) (r : ScreenInfo),
    parse_xrandr_any_connected ls = some r →
    ∃ l ∈ ls, ∃ p ∈ splitWhitespace l,
      ∃ res rest ws hs, splitOnce p '+' = some (res, rest) ∧
      splitOnce res 'x' = some (ws, hs) ∧
      parseIntRust ws = some r.width ∧ parseIntRust hs = some r.height := by
  intro ls
  induction ls with
  | nil => intro r hp; exact absurd hp (by simp [parse_xrandr_any_connected])
  | cons l ls ih =>
    intro r hp
    simp only [parse_xrandr_any_connected] at hp
    split at hp
    next hc =>
      split at hp
      next r1 hparts =>
        obtain rfl : r1 = r := by simpa using hp
        obtain ⟨p, hpmem, rest1⟩ := xrandrPrimaryParts_provenance _ _ hparts
        exact ⟨l, by simp, p, hpmem, rest1⟩
      next hparts =>
        obtain ⟨l', hl', rest1⟩ := ih r hp
        exact ⟨l', by simp [hl'], rest1⟩
    next hc =>
      obtain ⟨l', hl', rest1⟩ := ih r hp
      exact ⟨l', by simp [hl'], rest1⟩

/-- Provenance for the X11 position loop: a surfaced Resolution is either a
parsed geometry entry of some line, or was already the running closest. -/
theorem x11Loop_provenance (x y : Int) : ∀ (ls : List Str)
    (c : Option ScreenInfo) (cd : Int) (r : ScreenInfo),
    x11Loop x y ls c cd = some r →
    (∃ l ∈ ls, ∃ g, lineEntry l = some g ∧ r = ⟨g.w, g.h⟩) ∨ c = some r := by
  intro ls
  induction ls with
  | nil => intro c cd r hscan; exact Or.inr hscan
  | cons l ls ih =>
    intro c cd r hscan
    cases hle : lineEntry l with
    | none =>
      simp only [x11Loop, hle] at hscan
      rcases ih _ _ _ hscan with ⟨l', hl', rest⟩ | hc
      · exact Or.inl ⟨l', by simp [hl'], rest⟩
      · exact Or.inr hc
    | some g =>
      simp only [x11Loop, hle] at hscan
      by_cases hcg : containsPt x y g
      · rw [if_pos hcg] at hscan
        obtain rfl : (⟨g.w, g.h⟩ : ScreenInfo) = r := by simpa using hscan
        exact Or.inl ⟨l, by simp, g, hle, rfl⟩
      · rw [if_neg hcg] at hscan
        by_cases him : distTo x y g < cd
        · rw [if_pos him] at hscan
          rcases ih _ _ _ hscan with ⟨l', hl', rest⟩ | hc
          · exact Or.inl ⟨l', by simp [hl'], rest⟩
          · obtain rfl : (⟨g.w, g.h⟩ : ScreenInfo) = r := by simpa using hc
            exact Or.inl ⟨l, by simp, g, hle, rfl⟩
        · rw [if_neg him] at hscan
          rcases ih _ _ _ hscan with ⟨l', hl', rest⟩ | hc
          · exact Or.inl ⟨l', by simp [hl'], rest⟩
          · exact Or.inr hc

/-! ## Claim C5 -/

/-- Claim C5 counterexample: a surfaced Resolution is NOT always
non-negative.  The sysfs parser accepts a mode line `-5x-7` (Rust's
`parse::<f32>()` accepts signed numerals) and surfaces `{-5, -7}`. -/
theorem C5_counterexample :
    parse_drm_modes [toL "-5x-7"] = some ⟨-5, -7⟩ ∧ (-5 : Int) < 0 :=
  ⟨rfl, by decide⟩

/-- Claim C5 (amended): a Resolution is only ever surfaced with both fields
present; for EVERY probe parser of the core — sysfs (`parse_drm_modes`),
X11 primary (`parse_xrandr_primary`), X11 any-connected
(`parse_xrandr_any_connected`), generic Wayland (`parse_wlr_randr_output`),
Hyprland primary (`parse_hyprctl_output`), Hyprland focused
(`detect_hyprland_focused`), Sway focused (`detect_sway_focused`, through
the by-name scan), Sway primary (`parse_swaymsg_output`), and the X11
mouse-position selection (`get_x11_screen_at_position`) — each field of a
surfaced result is recovered from a successfully parsed numeric field (or
parsed geometry entry) of the consumed document, so a partial accumulator
is never surfaced; and the orchestrator only passes stage results through
unchanged or falls back to the (non-negative) hard-coded default (last
conjunct).  The parsed values themselves are not sign-checked (see the
counterexample). -/
theorem C5_amended_both_fields :
    (∀ (ls : List Str) (r : ScreenInfo), parse_drm_modes ls = some r →
      ∃ l ∈ ls, ∃ ws hs, splitOnce (rust_trim l) 'x' = some (ws, hs) ∧
        parseIntRust ws = some r.width ∧ parseIntRust hs = some r.height)
    ∧ (∀ (ls : List Str) (r : ScreenInfo), parse_xrandr_primary ls = some r →
      ∃ l ∈ ls, ∃ p ∈ splitWhitespace l,
        ∃ res rest ws hs, splitOnce p '+' = some (res, rest) ∧
        splitOnce res 'x' = some (ws, hs) ∧
        parseIntRust ws = some r.width ∧ parseIntRust hs = some r.height)
    ∧ (∀ (ls : List Str) (r : ScreenInfo), parse_xrandr_any_connected ls = some r →
      ∃ l ∈ ls, ∃ p ∈ splitWhitespace l,
        ∃ res rest ws hs, splitOnce p '+' = some (res, rest) ∧
        splitOnce res 'x' = some (ws, hs) ∧
        parseIntRust ws = some r.width ∧ parseIntRust hs = some r.height)
    ∧ (∀ (ls : List Str) (r : ScreenInfo), parse_wlr_randr_output ls = some r →
      ∃ l ∈ ls, rust_contains l (toL "current") = true ∧
        ∃ tok ws hs, (splitWhitespace (rust_trim l)).head? = some tok ∧
          splitOnce tok 'x' = some (ws, hs) ∧
          parseIntRust ws = some r.width ∧ parseIntRust hs = some r.height)
    ∧ (∀ (ls : List Str) (r : ScreenInfo), parse_hyprctl_output ls = some r →
      (∃ l ∈ ls, rust_starts_with (rust_trim l) widthKey = true ∧
        updateField (rust_trim l) none = some r.width)
      ∧ (∃ l ∈ ls, rust_starts_with (rust_trim l) heightKey = true ∧
        updateField (rust_trim l) none = some r.height))
    ∧ (∀ (cmd : Option (List Str)) (r : ScreenInfo),
        detect_hyprland_focused cmd = some r →
      ∃ ls, cmd = some ls ∧
        (∃ l ∈ ls, rust_starts_with (rust_trim l) widthKey = true ∧
          updateField (rust_trim l) none = some r.width)
        ∧ (∃ l ∈ ls, rust_starts_with (rust_trim l) heightKey = true ∧
          updateField (rust_trim l) none = some r.height))
    ∧ (∀ (ws outs : Option (List Str)) (r : ScreenInfo),
        detect_sway_focused ws outs = some r →
      ∃ ol, outs = some ol ∧
        (∃ l ∈ ol, rust_starts_with (rust_trim l) widthKey = true ∧
          updateField (rust_trim l) none = some r.width)
        ∧ (∃ l ∈ ol, rust_starts_with (rust_trim l) heightKey = true ∧
          updateField (rust_trim l) none = some r.height))
    ∧ (∀ (ls : List Str) (r : ScreenInfo), parse_swaymsg_output ls = some r →
      (∃ l ∈ ls, rust_starts_with (rust_trim l) widthKey = true ∧
        updateField (rust_trim l) none = some r.width)
      ∧ (∃ l ∈ ls, rust_starts_with (rust_trim l) heightKey = true ∧
        updateField (rust_trim l) none = some r.height))
    ∧ (∀ (x y : Int) (ls : List Str) (r : ScreenInfo),
        get_x11_screen_at_position x y ls = some r →
      ∃ l ∈ ls, ∃ g, lineEntry l = some g ∧ r = ⟨g.w, g.h⟩)
    ∧ (∀ a b c d : Option ScreenInfo,
        detect a b c d = ScreenInfo.default ∨ some (detect a b c d) ∈ [a, b, c, d]) := by
  refine ⟨parse_drm_modes_provenance, parse_xrandr_primary_provenance,
    parse_xrandr_any_connected_provenance, parse_wlr_randr_output_provenance,
    ?_, ?_, ?_, ?_, ?_, ?_⟩
  · intro ls r hp
    obtain ⟨p1, p2⟩ := hyprctlScan_provenance ls none none r hp
    refine ⟨?_, ?_⟩
    · rcases p1 with p1 | hval
      · exact p1
      · exact Option.noConfusion hval
    · rcases p2 with p2 | hval
      · exact p2
      · exact Option.noConfusion hval
  · intro cmd r hp
    cases cmd with
    | none => exact absurd hp (by simp [detect_hyprland_focused])
    | some ls =>
      obtain ⟨p1, p2⟩ := hyprFocusedScan_provenance ls false none none r hp
      refine ⟨ls, rfl, ?_, ?_⟩
      · rcases p1 with p1 | hval
        · exact p1
        · exact Option.noConfusion hval
      · rcases p2 with p2 | hval
        · exact p2
        · exact Option.noConfusion hval
  · intro ws outs r hp
    cases ws with
    | none => exact absurd hp (by simp [detect_sway_focused])
    | some wsl =>
      cases outs with
      | none =>
        simp only [detect_sway_focused] at hp
        split at hp
        · exact absurd hp (by simp)
        · exact absurd hp (by simp)
      | some ol =>
        simp only [detect_sway_focused] at hp
        split at hp
        · exact absurd hp (by simp)
        next nm hnm =>
          obtain ⟨p1, p2⟩ := swayByNameScan_provenance nm ol false false none none r hp
          refine ⟨ol, rfl, ?_, ?_⟩
          · rcases p1 with p1 | hval
            · exact p1
            · exact Option.noConfusion hval
          · rcases p2 with p2 | hval
            · exact p2
            · exact Option.noConfusion hval
  · intro ls r hp
    obtain ⟨p1, p2⟩ := swaymsgScan_provenance ls false none none r hp
    refine ⟨?_, ?_⟩
    · rcases p1 with p1 | hval
      · exact p1
      · exact Option.noConfusion hval
    · rcases p2 with p2 | hval
      · exact p2
      · exact Option.noConfusion hval
  · intro x y ls r hp
    rcases x11Loop_provenance x y ls none i32Max r hp with hprov | hc
    · exact hprov
    · exact Option.noConfusion hc
  · intro a b c d
    rcases a with _ | ra
    · rcases b with _ | rb
      · rcases c with _ | rc
        · rcases d with _ | rd
          · exact Or.inl rfl
          · exact Or.inr (by simp [detect, detect_linux])
        · exact Or.inr (by simp [detect, detect_linux])
      · exact Or.inr (by simp [detect, detect_linux])
    · exact Or.inr (by simp [detect, detect_linux])

/-- Witness for C5's amended theorem: provenance evaluated on concrete
sysfs, wlr-randr and swaymsg documents. -/
theorem C5_witness :
    (∃ l ∈ [toL "1920x1080"], ∃ ws hs, splitOnce (rust_trim l) 'x' = some (ws, hs) ∧
      parseIntRust ws = some ((1920 : Int)) ∧ parseIntRust hs = some ((1080 : Int)))
    ∧ (∃ l ∈ [toL "  1920x1080 px, 59.996002 Hz (current)"],
        rust_contains l (toL "current") = true ∧
        ∃ tok ws hs, (splitWhitespace (rust_trim l)).head? = some tok ∧
          splitOnce tok 'x' = some (ws, hs) ∧
          parseIntRust ws = some ((1920 : Int)) ∧ parseIntRust hs = some ((1080 : Int)))
    ∧ ((∃ l ∈ [toL "\"current\": true,", toL "\"width\": 800,",
          toL "\"height\": 600,", toL "\x7d"],
        rust_starts_with (rust_trim l) widthKey = true ∧
          updateField (rust_trim l) none = some ((800 : Int)))
      ∧ (∃ l ∈ [toL "\"current\": true,", toL "\"width\": 800,",
          toL "\"height\": 600,", toL "\x7d"],
        rust_starts_with (rust_trim l) heightKey = true ∧
          updateField (rust_trim l) none = some ((600 : Int)))) :=
  ⟨C5_amended_both_fields.1 [toL "1920x1080"] ⟨1920, 1080⟩ rfl,
   C5_amended_both_fields.2.2.2.1 [toL "  1920x1080 px, 59.996002 Hz (current)"]
     ⟨1920, 1080⟩ rfl,
   C5_amended_both_fields.2.2.2.2.2.2.2.1
     [toL "\"current\": true,", toL "\"width\": 800,",
      toL "\"height\": 600,", toL "\x7d"] ⟨800, 600⟩ rfl⟩

/-! ## Claim C7 -/

theorem not_mem_of_parse {l : Str} {n : Int} {ch : Char}
    (hp : parseIntRust l = some n) (h1 : ch.isDigit = false) (h2 : ch ≠ '-') :
    ch ∉ l :=
  fun hmem => numChar_ne (parseIntRust_chars hp ch hmem) h1 h2 rfl

/-- Claim C7: the positional-string scanner of the X11 probe.  Forward
direction: for every token assembled from four numeric fields with the
literal `x` and `+` separators, the scanner recovers exactly the four
embedded numbers.  Reverse direction: whenever the scanner yields a match,
the token had exactly that well-formed shape with four numeric fields —
contrapositively, every malformed token (a missing separator or a
non-numeric field) yields no match; the scanner's `Option` result type has
no error case. -/
theorem C7_geometry_token :
    (∀ (ws hs xs ys : Str) (w h x y : Int),
      parseIntRust ws = some w → parseIntRust hs = some h →
      parseIntRust xs = some x → parseIntRust ys = some y →
      parseGeometryToken (ws ++ 'x' :: (hs ++ '+' :: (xs ++ '+' :: ys)))
        = some ⟨w, h, x, y⟩)
    ∧ (∀ (t : Str) (g : Geom), parseGeometryToken t = some g →
      ∃ ws hs xs ys, t = ws ++ 'x' :: (hs ++ '+' :: (xs ++ '+' :: ys)) ∧
        parseIntRust ws = some g.w ∧ parseIntRust hs = some g.h ∧
        parseIntRust xs = some g.sx ∧ parseIntRust ys = some g.sy) := by
  constructor
  · intro ws hs xs ys w h x y hpw hph hpx hpy
    have hpws : '+' ∉ ws := not_mem_of_parse hpw (by decide) (by decide)
    have hphs : '+' ∉ hs := not_mem_of_parse hph (by decide) (by decide)
    have hxws : 'x' ∉ ws := not_mem_of_parse hpw (by decide) (by decide)
    have hpxs : '+' ∉ xs := not_mem_of_parse hpx (by decide) (by decide)
    have h1 : splitOnce (ws ++ 'x' :: (hs ++ '+' :: (xs ++ '+' :: ys))) '+'
        = some (ws ++ 'x' :: hs, xs ++ '+' :: ys) := by
      rw [show ws ++ 'x' :: (hs ++ '+' :: (xs ++ '+' :: ys))
          = (ws ++ 'x' :: hs) ++ '+' :: (xs ++ '+' :: ys) by simp]
      refine splitOnce_append _ ?_
      intro hmem
      rcases List.mem_append.mp hmem with hm | hm
      · exact hpws hm
      · rcases List.mem_cons.mp hm with he | hm
        · exact absurd he (by decide)
        · exact hphs hm
    have h2 : splitOnce (ws ++ 'x' :: hs) 'x' = some (ws, hs) :=
      splitOnce_append _ hxws
    have h3 : splitOnce (xs ++ '+' :: ys) '+' = some (xs, ys) :=
      splitOnce_append _ hpxs
    simp [parseGeometryToken, h1, h2, h3, hpw, hph, hpx, hpy]
  · intro t g hp
    simp only [parseGeometryToken] at hp
    split at hp
    next h1 => exact absurd hp (by simp)
    next res pos h1 =>
      split at hp
      next h2 => exact absurd hp (by simp)
      next ws hs h2 =>
        split at hp
        next h3 => exact absurd hp (by simp)
        next xs ys h3 =>
          split at hp
          next w h x y hpw hph hpx hpy =>
            obtain rfl : (⟨w, h, x, y⟩ : Geom) = g := by simpa using hp
            obtain ⟨ht, _⟩ := splitOnce_eq_some h1
            obtain ⟨hres, _⟩ := splitOnce_eq_some h2
            obtain ⟨hpos, _⟩ := splitOnce_eq_some h3
            subst hres hpos
            exact ⟨ws, hs, xs, ys, by simpa using ht, hpw, hph, hpx, hpy⟩
          next a b c d hne => exact absurd hp (by simp)

/-- Witness for C7: the spec's example token `1920x1080+1920+0` (assembled
from its four numeric fields) parsed back to its numbers. -/
theorem C7_witness :
    parseGeometryToken (toL "1920" ++ 'x' :: (toL "1080" ++ '+' :: (toL "1920" ++ '+' :: toL "0")))
      = some ⟨1920, 1080, 1920, 0⟩ :=
  C7_geometry_token.1 (toL "1920") (toL "1080") (toL "1920") (toL "0")
    1920 1080 1920 0 rfl rfl rfl rfl

/-! ## Toolkit: more trimming facts for schematic lines -/

theorem dropWhile_all_false {p : Char → Bool} : ∀ {l : Str},
    (∀ c ∈ l, p c = false) → l.dropWhile p = l := by
  intro l h
  cases l with
  | nil => rfl
  | cons c t => simp [List.dropWhile_cons, h c (by simp)]

theorem trimEndComma_concat {a : Str} (h : ∀ c ∈ a, ¬(c = ',')) :
    trimEndComma (a ++ [',']) = a := by
  have hrev : ∀ c ∈ a.reverse, (decide (c = ',')) = false := by
    intro c hc
    exact decide_eq_false (h c (List.mem_reverse.mp hc))
  simp only [trimEndComma, List.reverse_append, List.reverse_cons, List.reverse_nil,
    List.nil_append, List.singleton_append, List.dropWhile_cons]
  rw [if_pos (show decide True = true from rfl)]
  rw [dropWhile_all_false hrev, List.reverse_reverse]

theorem rust_trim_wrap (c : Char) (A mid B : Str) (d : Char)
    (hc : isWS c = false) (hd : isWS d = false) :
    rust_trim ((c :: A) ++ mid ++ (B ++ [d])) = (c :: A) ++ mid ++ (B ++ [d]) := by
  have h1 : (c :: A) ++ mid ++ (B ++ [d]) = c :: ((A ++ mid ++ B) ++ [d]) := by simp
  rw [h1, rust_trim, ltrimWS_cons _ hc,
    show c :: ((A ++ mid ++ B) ++ [d]) = (c :: (A ++ mid ++ B)) ++ [d] by simp,
    rtrimWS_concat _ hd]

/-! ## Claim C10 -/

/-- Claim C10: the Sway by-name output scan matches the target output name
by SUBSTRING CONTAINMENT on the (trimmed) `"name":` line, not by equality:
for every target that occurs as a substring anywhere in another output's
name, the record carrying the containing name is entered and its current
mode is returned as the match.  The record's width/height fields may carry
any numeric strings. -/
theorem C10_substring_output_match
    (target other wStr hStr : Str) (w h : Int)
    (hsub : rust_contains other target = true)
    (hpw : parseIntRust wStr = some w) (hph : parseIntRust hStr = some h) :
    parse_sway_output_by_name
      [toL "\"name\": \"" ++ other ++ toL "\",",
       toL "\"current\": true,",
       toL "\"width\": " ++ (wStr ++ [',']),
       toL "\"height\": " ++ (hStr ++ [',']),
       ['\x7d']] target = some ⟨w, h⟩ := by
  have hwall : ∀ c ∈ wStr, isWS c = false :=
    fun c hc => numChar_not_ws (parseIntRust_chars hpw c hc)
  have hhall : ∀ c ∈ hStr, isWS c = false :=
    fun c hc => numChar_not_ws (parseIntRust_chars hph c hc)
  -- line 1 (`"name": "<other>",`)
  have ht1 : rust_trim (toL "\"name\": \"" ++ (other ++ toL "\","))
      = toL "\"name\": \"" ++ (other ++ toL "\",") :=
    rust_trim_wrap '"' (toL "name\": \"") other ['"'] ',' (by decide) (by decide)
  have h1a : rust_starts_with (toL "\"name\": \"" ++ (other ++ toL "\",")) nameKey = true :=
    isPrefixOf_append_right nameKey ((toL " \"" ++ other) ++ toL "\",")
  have h1b : rust_contains (toL "\"name\": \"" ++ (other ++ toL "\",")) target = true :=
    rust_contains_trans_ctx (toL "\"name\": \"") (toL "\",") hsub
  -- line 2 (`"current": true,`), fully concrete
  have h2a : rust_starts_with (rust_trim (toL "\"current\": true,")) nameKey = false := by
    decide
  have h2b : rust_contains (rust_trim (toL "\"current\": true,")) currentTrueKey = true := by
    decide
  -- line 3 (`"width": <wStr>,`)
  have ht3 : rust_trim (toL "\"width\": " ++ (wStr ++ [',']))
      = toL "\"width\": " ++ (wStr ++ [',']) :=
    rust_trim_wrap '"' (toL "width\": ") wStr [] ',' (by decide) (by decide)
  have h3a : rust_starts_with (toL "\"width\": " ++ (wStr ++ [','])) nameKey = false := rfl
  have h3cur : rust_contains (toL "\"width\": " ++ (wStr ++ [','])) currentTrueKey = false :=
    rust_contains_false_of_not_mem (show 'u' ∈ currentTrueKey by decide) (by
      intro hmem
      rcases List.mem_append.mp hmem with hm | hm
      · exact absurd hm (by decide)
      · rcases List.mem_append.mp hm with hm' | hm'
        · exact not_mem_of_parse hpw (by decide) (by decide) hm'
        · exact absurd hm' (by decide))
  have h3b : rust_starts_with (toL "\"width\": " ++ (wStr ++ [','])) widthKey = true :=
    isPrefixOf_append_right widthKey (' ' :: (wStr ++ [',']))
  have hup3 : updateField (toL "\"width\": " ++ (wStr ++ [','])) none = some w := by
    have hs1 : splitOnce (toL "\"width\": " ++ (wStr ++ [','])) ':'
        = some (toL "\"width\"", ' ' :: (wStr ++ [','])) :=
      splitOnce_append (' ' :: (wStr ++ [','])) (show ':' ∉ toL "\"width\"" by decide)
    have hs2 : splitOnce (' ' :: (wStr ++ [','])) ':' = none := splitOnce_none_of (by
      intro c hc
      rcases List.mem_cons.mp hc with rfl | hc'
      · decide
      · rcases List.mem_append.mp hc' with hm | hm
        · exact numChar_ne (parseIntRust_chars hpw c hm) (by decide) (by decide)
        · simp only [List.mem_singleton] at hm; subst hm; decide)
    have htv : rust_trim (' ' :: (wStr ++ [','])) = wStr ++ [','] := by
      rw [rust_trim,
        show ltrimWS (' ' :: (wStr ++ [','])) = (wStr ++ [',']).dropWhile isWS from by
          simp [ltrimWS, List.dropWhile_cons, isWS],
        dropWhile_all_false (by
          intro c hc
          rcases List.mem_append.mp hc with hm | hm
          · exact hwall c hm
          · simp only [List.mem_singleton] at hm; subst hm; decide)]
      exact rtrimWS_concat _ (by decide)
    have hec : trimEndComma (wStr ++ [',']) = wStr :=
      trimEndComma_concat
        (fun c hc => numChar_ne (parseIntRust_chars hpw c hc) (by decide) (by decide))
    simp only [updateField, splitNth1, hs1, hs2, Option.map_some', htv, hec]
    exact hpw
  -- line 4 (`"height": <hStr>,`)
  have ht4 : rust_trim (toL "\"height\": " ++ (hStr ++ [',']))
      = toL "\"height\": " ++ (hStr ++ [',']) :=
    rust_trim_wrap '"' (toL "height\": ") hStr [] ',' (by decide) (by decide)
  have h4a : rust_starts_with (toL "\"height\": " ++ (hStr ++ [','])) nameKey = false := rfl
  have h4cur : rust_contains (toL "\"height\": " ++ (hStr ++ [','])) currentTrueKey = false :=
    rust_contains_false_of_not_mem (show 'u' ∈ currentTrueKey by decide) (by
      intro hmem
      rcases List.mem_append.mp hmem with hm | hm
      · exact absurd hm (by decide)
      · rcases List.mem_append.mp hm with hm' | hm'
        · exact not_mem_of_parse hph (by decide) (by decide) hm'
        · exact absurd hm' (by decide))
  have h4w : rust_starts_with (toL "\"height\": " ++ (hStr ++ [','])) widthKey = false := rfl
  have h4b : rust_starts_with (toL "\"height\": " ++ (hStr ++ [','])) heightKey = true :=
    isPrefixOf_append_right heightKey (' ' :: (hStr ++ [',']))
  have hup4 : updateField (toL "\"height\": " ++ (hStr ++ [','])) none = some h := by
    have hs1 : splitOnce (toL "\"height\": " ++ (hStr ++ [','])) ':'
        = some (toL "\"height\"", ' ' :: (hStr ++ [','])) :=
      splitOnce_append (' ' :: (hStr ++ [','])) (show ':' ∉ toL "\"height\"" by decide)
    have hs2 : splitOnce (' ' :: (hStr ++ [','])) ':' = none := splitOnce_none_of (by
      intro c hc
      rcases List.mem_cons.mp hc with rfl | hc'
      · decide
      · rcases List.mem_append.mp hc' with hm | hm
        · exact numChar_ne (parseIntRust_chars hph c hm) (by decide) (by decide)
        · simp only [List.mem_singleton] at hm; subst hm; decide)
    have htv : rust_trim (' ' :: (hStr ++ [','])) = hStr ++ [','] := by
      rw [rust_trim,
        show ltrimWS (' ' :: (hStr ++ [','])) = (hStr ++ [',']).dropWhile isWS from by
          simp [ltrimWS, List.dropWhile_cons, isWS],
        dropWhile_all_false (by
          intro c hc
          rcases List.mem_append.mp hc with hm | hm
          · exact hhall c hm
          · simp only [List.mem_singleton] at hm; subst hm; decide)]
      exact rtrimWS_concat _ (by decide)
    have hec : trimEndComma (hStr ++ [',']) = hStr :=
      trimEndComma_concat
        (fun c hc => numChar_ne (parseIntRust_chars hph c hc) (by decide) (by decide))
    simp only [updateField, splitNth1, hs1, hs2, Option.map_some', htv, hec]
    exact hph
  -- line 5 (`}`), fully concrete
  have h5a : rust_starts_with ['\x7d'] nameKey = false := by decide
  have h5cur : rust_contains ['\x7d'] currentTrueKey = false := by decide
  have h5w : rust_starts_with ['\x7d'] widthKey = false := by decide
  have h5h : rust_starts_with ['\x7d'] heightKey = false := by decide
  have h5e : rust_trim ['\x7d'] = ['\x7d'] := by decide
  simp [parse_sway_output_by_name, swayByNameScan, ht1, h1a, h1b, h2a, h2b,
    ht3, h3a, h3cur, h3b, hup3, ht4, h4a, h4cur, h4w, h4b, hup4,
    h5a, h5cur, h5w, h5h, h5e]

/-- Witness for C10: target `DP-1` matched against a record named `DP-10`
(the spec's example), returning that record's current mode `2560×1440`. -/
theorem C10_witness :
    parse_sway_output_by_name
      [toL "\"name\": \"" ++ toL "DP-10" ++ toL "\",",
       toL "\"current\": true,",
       toL "\"width\": " ++ (toL "2560" ++ [',']),
       toL "\"height\": " ++ (toL "1440" ++ [',']),
       ['\x7d']] (toL "DP-1") = some ⟨2560, 1440⟩ :=
  C10_substring_output_match (toL "DP-1") (toL "DP-10") (toL "2560") (toL "1440")
    2560 1440 (by decide) rfl rfl

/-! ## Helper lemmas for the X11 selection loop -/

/-- If no remaining entry contains the cursor and none improves on the
running closest distance, the loop keeps its accumulator. -/
theorem x11Loop_stays (x y : Int) : ∀ (ls : List Str) (c : Option ScreenInfo) (cd : Int),
    (∀ g ∈ ls.filterMap lineEntry, ¬containsPt x y g) →
    (∀ g ∈ ls.filterMap lineEntry, ¬(distTo x y g < cd)) →
    x11Loop x y ls c cd = c := by
  intro ls
  induction ls with
  | nil => intro c cd _ _; rfl
  | cons l ls ih =>
    intro c cd hnc hni
    cases hle : lineEntry l with
    | none =>
      simp only [List.filterMap_cons, hle] at hnc hni
      simp only [x11Loop, hle]
      exact ih c cd hnc hni
    | some g =>
      simp only [List.filterMap_cons, hle] at hnc hni
      have hncg : ¬containsPt x y g := hnc g (by simp)
      have hnig : ¬(distTo x y g < cd) := hni g (by simp)
      simp only [x11Loop, hle]
      rw [if_neg hncg, if_neg hnig]
      exact ih c cd (fun g' hg' => hnc g' (by simp [hg'])) (fun g' hg' => hni g' (by simp [hg']))

/-- The first parsed entry containing the cursor is returned immediately,
whatever the accumulator holds. -/
theorem x11Loop_contain (x y : Int) : ∀ (ls : List Str) (gc : Geom)
    (c : Option ScreenInfo) (cd : Int),
    List.find? (fun g => decide (containsPt x y g)) (ls.filterMap lineEntry) = some gc →
    x11Loop x y ls c cd = some ⟨gc.w, gc.h⟩ := by
  intro ls
  induction ls with
  | nil => intro gc c cd hf; simp at hf
  | cons l ls ih =>
    intro gc c cd hf
    cases hle : lineEntry l with
    | none =>
      simp only [List.filterMap_cons, hle] at hf
      simp only [x11Loop, hle]
      exact ih gc c cd hf
    | some g =>
      simp only [List.filterMap_cons, hle] at hf
      simp only [x11Loop, hle]
      by_cases hcg : containsPt x y g
      · simp only [List.find?_cons, decide_eq_true hcg] at hf
        obtain rfl : g = gc := by simpa using hf
        rw [if_pos hcg]
      · simp only [List.find?_cons, decide_eq_false hcg] at hf
        rw [if_neg hcg]
        by_cases him : distTo x y g < cd
        · rw [if_pos him]; exact ih gc _ _ hf
        · rw [if_neg him]; exact ih gc c cd hf

/-- When no entry contains the cursor but some entry beats the running
closest distance, the loop returns the first entry achieving the minimal
distance, and every entry before it fails the "minimal and in range"
predicate. -/
theorem x11Loop_min (x y : Int) : ∀ (ls : List Str) (c : Option ScreenInfo) (cd : Int),
    (∀ g ∈ ls.filterMap lineEntry, ¬containsPt x y g) →
    (∃ g ∈ ls.filterMap lineEntry, distTo x y g < cd) →
    ∃ l1 gm l2, ls.filterMap lineEntry = l1 ++ gm :: l2
      ∧ x11Loop x y ls c cd = some ⟨gm.w, gm.h⟩
      ∧ distTo x y gm < cd
      ∧ (∀ g' ∈ ls.filterMap lineEntry, distTo x y gm ≤ distTo x y g')
      ∧ (∀ g' ∈ l1, ¬(distTo x y g' < cd ∧
          ∀ g2 ∈ ls.filterMap lineEntry, distTo x y g' ≤ distTo x y g2)) := by
  intro ls
  induction ls with
  | nil => intro c cd _ hex; simp at hex
  | cons l ls ih =>
    intro c cd hnc hex
    cases hle : lineEntry l with
    | none =>
      simp only [List.filterMap_cons, hle] at hnc hex ⊢
      simp only [x11Loop, hle]
      exact ih c cd hnc hex
    | some g =>
      simp only [List.filterMap_cons, hle] at hnc hex ⊢
      have hncg : ¬containsPt x y g := hnc g (by simp)
      simp only [x11Loop, hle]
      rw [if_neg hncg]
      by_cases him : distTo x y g < cd
      · rw [if_pos him]
        by_cases hall : ∀ g' ∈ ls.filterMap lineEntry, distTo x y g ≤ distTo x y g'
        · have hrun : x11Loop x y ls (some ⟨g.w, g.h⟩) (distTo x y g) = some ⟨g.w, g.h⟩ :=
            x11Loop_stays x y ls _ _ (fun g' hg' => hnc g' (by simp [hg']))
              (fun g' hg' hlt => absurd (hall g' hg') (not_le.mpr hlt))
          refine ⟨[], g, ls.filterMap lineEntry, by simp, hrun, him, ?_, by simp⟩
          intro g' hg'
          rcases List.mem_cons.mp hg' with rfl | hg'
          · exact le_refl _
          · exact hall g' hg'
        · push_neg at hall
          obtain ⟨gb, hgb, hblt⟩ := hall
          obtain ⟨l1, gm, l2, hdec, hrun, hlt, hmin, hfail⟩ :=
            ih (some ⟨g.w, g.h⟩) (distTo x y g)
              (fun g' hg' => hnc g' (by simp [hg'])) ⟨gb, hgb, hblt⟩
          have hgm_mem : gm ∈ ls.filterMap lineEntry := by
            rw [hdec]; exact List.mem_append_right _ (List.mem_cons_self _ _)
          refine ⟨g :: l1, gm, l2, by simp [hdec], hrun, lt_trans hlt him, ?_, ?_⟩
          · intro g' hg'
            rcases List.mem_cons.mp hg' with rfl | hg'
            · exact le_of_lt hlt
            · exact hmin g' hg'
          · intro g' hg'
            rcases List.mem_cons.mp hg' with rfl | hg'
            · rintro ⟨_, hming⟩
              exact absurd (hming gm (List.mem_cons_of_mem _ hgm_mem)) (not_le.mpr hlt)
            · rintro ⟨hlt', hmin'⟩
              refine hfail g' hg' ⟨?_, ?_⟩
              · exact lt_of_le_of_lt (hmin' gm (List.mem_cons_of_mem _ hgm_mem)) hlt
              · intro g2 hg2
                exact hmin' g2 (List.mem_cons_of_mem _ hg2)
      · rw [if_neg him]
        have hex' : ∃ g' ∈ ls.filterMap lineEntry, distTo x y g' < cd := by
          obtain ⟨gb, hgb, hblt⟩ := hex
          rcases List.mem_cons.mp hgb with rfl | hgb'
          · exact absurd hblt him
          · exact ⟨gb, hgb', hblt⟩
        obtain ⟨l1, gm, l2, hdec, hrun, hlt, hmin, hfail⟩ :=
          ih c cd (fun g' hg' => hnc g' (by simp [hg'])) hex'
        refine ⟨g :: l1, gm, l2, by simp [hdec], hrun, hlt, ?_, ?_⟩
        · intro g' hg'
          rcases List.mem_cons.mp hg' with rfl | hg'
          · exact le_trans (le_of_lt hlt) (not_lt.mp him)
          · exact hmin g' hg'
        · intro g' hg'
          rcases List.mem_cons.mp hg' with rfl | hg'
          · rintro ⟨hc', _⟩; exact him hc'
          · rintro ⟨hlt', hmin'⟩
            exact hfail g' hg' ⟨hlt', fun g2 hg2 => hmin' g2 (List.mem_cons_of_mem _ hg2)⟩

/-! ## Claim C6 -/

/-- Claim C6: the X11 mouse-based screen selection.  For every cursor point
and every xrandr document (hence every list of parsed geometry entries,
`ls.filterMap lineEntry`), the loop agrees with the spec-side description
`x11SpecSelect`: an entry whose rectangle contains the point — the first
such in document order — is selected immediately regardless of distance
ranking; if no rectangle contains the point, the first entry whose sum of
per-axis edge distances is minimal over all entries is selected (so an
exact tie keeps the first-encountered entry).  The hypothesis keeps every
total distance below the `i32::MAX` sentinel that initializes
`closest_distance`, which holds for all real screen geometry. -/
theorem C6_x11_selection (x y : Int) (ls : List Str)
    (hb : ∀ g ∈ ls.filterMap lineEntry, distTo x y g < i32Max) :
    get_x11_screen_at_position x y ls = x11SpecSelect x y (ls.filterMap lineEntry) := by
  rw [get_x11_screen_at_position, x11SpecSelect]
  cases hf : List.find? (fun g => decide (containsPt x y g)) (ls.filterMap lineEntry) with
  | some gc => exact x11Loop_contain x y ls gc none i32Max hf
  | none =>
    have hnc : ∀ g ∈ ls.filterMap lineEntry, ¬containsPt x y g := by
      intro g hg
      have := List.find?_eq_none.mp hf g hg
      simpa using this
    rcases hemp : ls.filterMap lineEntry with _ | ⟨g0, gs'⟩
    · have hstay : x11Loop x y ls none i32Max = none :=
        x11Loop_stays x y ls none i32Max
          (by intro g hg; rw [hemp] at hg; simp at hg)
          (by intro g hg; rw [hemp] at hg; simp at hg)
      rw [hstay]
      rfl
    · have hex : ∃ g ∈ ls.filterMap lineEntry, distTo x y g < i32Max := by
        refine ⟨g0, ?_, hb g0 ?_⟩ <;> rw [hemp] <;> exact List.mem_cons_self _ _
      obtain ⟨l1, gm, l2, hdec, hrun, _, hmin, hfail⟩ :=
        x11Loop_min x y ls none i32Max hnc hex
      have hGG : g0 :: gs' = l1 ++ gm :: l2 := hemp.symm.trans hdec
      rw [hrun, hGG]
      have hl1 : ∀ g' ∈ l1, ((l1 ++ gm :: l2).all
          (fun g2 => decide (distTo x y g' ≤ distTo x y g2))) = false := by
        intro g' hg'
        cases hall : (l1 ++ gm :: l2).all
            (fun g2 => decide (distTo x y g' ≤ distTo x y g2)) with
        | false => rfl
        | true =>
          exfalso
          apply hfail g' hg'
          have hmem : g' ∈ ls.filterMap lineEntry := by
            rw [hdec]; exact List.mem_append_left _ hg'
          refine ⟨hb g' hmem, ?_⟩
          intro g2 hg2
          have hg2' : g2 ∈ l1 ++ gm :: l2 := by rw [hdec] at hg2; exact hg2
          exact of_decide_eq_true (List.all_eq_true.mp hall g2 hg2')
      have hgm : ((l1 ++ gm :: l2).all
          (fun g2 => decide (distTo x y gm ≤ distTo x y g2))) = true := by
        rw [List.all_eq_true]
        intro g2 hg2
        exact decide_eq_true (hmin g2 (by rw [hdec]; exact hg2))
      rw [find?_append_cons l2 hl1 hgm]
      rfl

/-- Witness for C6: the spec's containment example — cursor `(2000, 100)`
against rectangles `1920x1080+0+0` and `1600x900+1920+0` — selects the
second entry (the point falls inside it) although the first is closer by
distance ranking; evaluated through the full line-level probe. -/
theorem C6_witness :
    get_x11_screen_at_position 2000 100
      [toL "eDP-1 connected 1920x1080+0+0 (normal left inverted) 344mm x 194mm",
       toL "HDMI-1 connected 1600x900+1920+0 (normal left inverted) 509mm x 286mm"]
      = some ⟨1600, 900⟩ :=
  (C6_x11_selection 2000 100
    [toL "eDP-1 connected 1920x1080+0+0 (normal left inverted) 344mm x 194mm",
     toL "HDMI-1 connected 1600x900+1920+0 (normal left inverted) 509mm x 286mm"]
    (by decide)).trans (by decide)
